import Mathlib

/-!
# Verification of the runexcl core against its specification

Shallow embedding of the runexcl sources (CPUSet.cpp/.hpp, CPUCGroup.cpp,
CPUGovernor.cpp, runexcl.cpp).  A CPU mask (`cpu_set_t` sized for `MaxCpus`
bits) is modelled as a `Finset ℕ` whose elements are the set bit indices;
all bit operations on same-sized sets become finite-set operations.  Loops
over the bit indices are modelled with an explicit fuel argument equal to
the number of iterations the C loop performs, so every definition is
executable by the kernel.
-/

namespace CPUSet

/-- A CPU mask: the set of set bit indices.  The invariant `i < maxCPUs`
for every member is carried as a hypothesis where it matters. -/
abbrev Mask := Finset ℕ

/-- `CPUSet::first` (CPUSet.cpp:96-103): scan indices `i = 0,1,...` upward,
returning the first that is set.  `fuel` counts the remaining iterations of
`for (int i = 0; i < mMaxCPUs; ++i)`; the loop falls through to `-1`. -/
def firstAux (m : Mask) (i : ℕ) : ℕ → Int
  | 0 => -1
  | fuel + 1 => if i ∈ m then (i : Int) else firstAux m (i + 1) fuel

/-- `CPUSet::first`. -/
def first (maxCPUs : ℕ) (m : Mask) : Int := firstAux m 0 maxCPUs

/-- `CPUSet::last` (CPUSet.cpp:105-112): scan `i = mMaxCPUs-1` down to `0`,
returning the first set index.  `lastAux m k` checks indices `k-1, k-2, ..., 0`. -/
def lastAux (m : Mask) : ℕ → Int
  | 0 => -1
  | k + 1 => if k ∈ m then (k : Int) else lastAux m k

/-- `CPUSet::last`. -/
def last (maxCPUs : ℕ) (m : Mask) : Int := lastAux m maxCPUs

/-- `CPU_XOR_S` on same-sized sets: bit-wise exclusive or, i.e. symmetric
difference of the index sets (`CPUSet::operator^`, CPUSet.hpp:174-180). -/
def xorMask (a b : Mask) : Mask := (a ∪ b) \ (a ∩ b)

end CPUSet

namespace CPUCGroup

open CPUSet

/-- The ledger update performed by `CPUCGroup::~CPUCGroup`
(CPUCGroup.cpp:267): `exclusive = (exclusive ^ mCPUSet) & exclusive`,
the complement-free encoding of set difference written back to
`cpuset.cpus.exclusive`. -/
def releaseLedger (exclusive mCPUSet : Mask) : Mask :=
  xorMask exclusive mCPUSet ∩ exclusive

/-- The reservation step of `CPUCGroup::CPUCGroup` (CPUCGroup.cpp:276-297),
performed under the ledger `flock`: read the ledger and the effective mask,
fail when `(set & available) != set`, otherwise write `exclusive |= set`
back.  The second component is the ledger content after the step (the write
happens only on success). -/
def reserveCPUs (ledger available set : Mask) : Except String Unit × Mask :=
  if set ∩ available ≠ set then
    (.error "Requested cpuset not a subset", ledger)
  else
    (.ok (), ledger ∪ set)

/-- The error surfaced by each failure point of `CPUCGroup::CPUCGroup`.
`notSubset` and `partitionRejected` are thrown as `std::runtime_error`;
`mkdirFailed` and `cpusWriteFailed` as `std::system_error`. -/
inductive ConstructError where
  | notSubset
  | mkdirFailed
  | cpusWriteFailed
  | partitionRejected (readback : String)
deriving DecidableEq

/-- The environment a construction runs against: the ledger and effective
mask read under the lock, and the outcome of each subsequent kernel
interaction. -/
structure SliceEnv where
  ledger : Mask
  effective : Mask
  mkdirOk : Bool
  cpusWriteOk : Bool
  /-- What reading back `cpuset.cpus.partition` yields after writing `root`
  (`CPUCGroup::set_partition_type`, CPUCGroup.cpp:219-230). -/
  partitionReadback : String
deriving DecidableEq

deriving instance DecidableEq for Except

/-- Observable state after a construction attempt: the surfaced result,
the final ledger content, and whether the group directory still exists. -/
structure ConstructResult where
  result : Except ConstructError Unit
  ledger : Mask
  dirExists : Bool
deriving DecidableEq

/-- `CPUCGroup::CPUCGroup` (CPUCGroup.cpp:276-315).  After a successful
reservation: `mkdir` (on failure the `std::system_error` propagates with no
further action); then `cpuset.cpus` write and `set_partition_type("root")`
inside `try { ... } catch (...) { remove(); throw; }` — the catch removes
the directory and rethrows.  No failure path touches the ledger again; the
destructor (which would release) never runs for a throwing constructor. -/
def construct (env : SliceEnv) (set : Mask) : ConstructResult :=
  match reserveCPUs env.ledger env.effective set with
  | (.error _, led) => ⟨.error .notSubset, led, false⟩
  | (.ok _, led) =>
    if env.mkdirOk = false then
      ⟨.error .mkdirFailed, led, false⟩
    else if env.cpusWriteOk = false then
      ⟨.error .cpusWriteFailed, led, false⟩
    else if env.partitionReadback ≠ "root" then
      ⟨.error (.partitionRejected env.partitionReadback), led, false⟩
    else
      ⟨.ok (), led, true⟩

end CPUCGroup

namespace RunExcl

open CPUSet CPUCGroup

/-- The C++ exception class thrown by each failure inside `main`'s `try`
block.  `main` catches only `std::system_error` (runexcl.cpp:333); an
uncaught `std::runtime_error` escapes `main` and `std::terminate` aborts
the process. -/
inductive ExcClass where
  | systemError
  | runtimeError
deriving DecidableEq

/-- Which exception class each constructor failure is thrown as:
the subset check and the partition-type readback mismatch throw
`std::runtime_error` (CPUCGroup.cpp:291, 228); `mkdir` and sysfs write
failures throw `std::system_error` (CPUCGroup.cpp:303, sysfs.hpp:44). -/
def excClassOf : ConstructError → ExcClass
  | .notSubset => .runtimeError
  | .mkdirFailed => .systemError
  | .cpusWriteFailed => .systemError
  | .partitionRejected _ => .runtimeError

/-- How the process ends: a normal exit with a code, or an abort via
`std::terminate` after an uncaught exception. -/
inductive MainOutcome where
  | exited (code : ℕ)
  | terminated
deriving DecidableEq

/-- Environment for one `main` invocation (runexcl.cpp:240-339), covering
the steps from the availability check to `waitpid`.  `availableAtMain` is
the `setupSlice` result; `slice` is the environment seen by the
`CPUCGroup` constructor (its own reads under the lock); `childStatus` is
the child's wait status, which `main` never examines. -/
structure MainEnv where
  requested : Mask
  availableAtMain : Mask
  slice : SliceEnv
  cloneOk : Bool
  waitpidOk : Bool
  childStatus : ℕ
deriving DecidableEq

/-- The parent path of `main` (runexcl.cpp:240-339).  `set = available &
requested` is checked against `requested` (explicit `return 1`); the
`CPUCGroup` construction may throw; `clone3` and `waitpid` failures throw
`std::system_error`.  The `catch (std::system_error&)` handler prints and
returns 1; any other exception escapes `main` and terminates the process.
On success `main` returns 0 without inspecting the child's status.
(The frequency step is omitted: `CPUGovernor::set_frequency` catches all
its exceptions internally, runexcl.cpp:256-258 / CPUGovernor.cpp:254-264.) -/
def runexclMain (env : MainEnv) : MainOutcome :=
  let set := env.availableAtMain ∩ env.requested
  if set ≠ env.requested then .exited 1
  else
    match (construct env.slice set).result with
    | .error e =>
      match excClassOf e with
      | .systemError => .exited 1
      | .runtimeError => .terminated
    | .ok _ =>
      if env.cloneOk = false then .exited 1
      else if env.waitpidOk = false then .exited 1
      else .exited 0

end RunExcl

namespace CPUGovernor

/-- The saved per-policy state recorded by `CPUPolicy::CPUPolicy`
(CPUGovernor.cpp:72-79). -/
structure CPUPolicyRec where
  path : String
  scalingGovernor : String
  scalingSetSpeed : String
  scalingMaxFreq : Int
  scalingMinFreq : Int
deriving DecidableEq

/-- The sysfs writes performed by `CPUPolicy::~CPUPolicy`
(CPUGovernor.cpp:81-92), in order: write back `scaling_setspeed` unless it
is the `<unsupported>` sentinel, then write back `scaling_governor`. -/
def policyDtorWrites (p : CPUPolicyRec) : List (String × String) :=
  (if p.scalingSetSpeed = "<unsupported>" then []
   else [(p.path ++ "/scaling_setspeed", p.scalingSetSpeed)])
  ++ [(p.path ++ "/scaling_governor", p.scalingGovernor)]

/-- Path of the AMD P-state driver status file. -/
def amdPstateStatusPath : String := "/sys/devices/system/cpu/amd_pstate/status"

/-- The saved state of a `CPUAMDPStatePerformanceDriver`: the driver status
recorded before switching to `passive`, and the policy records collected by
`setup_policies`. -/
structure AMDDriverRec where
  status : String
  policies : List CPUPolicyRec
deriving DecidableEq

/-- `std::vector<CPUPolicy*>::clear()` destroys the *pointer* elements —
a trivial destruction that does not `delete` the pointees — so no
`CPUPolicy` destructor runs and the vector is left empty. -/
def vectorClear (_ps : List CPUPolicyRec) : List CPUPolicyRec := []

/-- The sysfs writes performed when a `CPUAMDPStatePerformanceDriver` is
destroyed.  C++ destruction order: first the derived destructor body
(CPUGovernor.cpp:213-222): `mPolicies.clear()` followed by the write of the
saved status back to `amd_pstate/status`; then the base-class destructor
body (CPUGovernor.cpp:125-129), which deletes each element still in
`mPolicies` — by then none, so no policy write-back happens at all. -/
def amdDriverDtorWrites (d : AMDDriverRec) : List (String × String) :=
  let remaining := vectorClear d.policies
  [(amdPstateStatusPath, d.status)] ++ (remaining.map policyDtorWrites).flatten

/-- C `(int)` conversion of a `double`: truncation toward zero, on exact
rational values. -/
def truncToInt (q : ℚ) : Int := if q < 0 then -(⌊-q⌋) else ⌊q⌋

/-- `CPUPolicy::set_frequency` (CPUGovernor.cpp:94-115): the setpoint
written to `scaling_setspeed` for the requested value `freq`.  `_freq`
starts at `mScalingMinFreq`; the branch chain assigns per the overloaded
meaning; the final write clamps with `_freq < mScalingMinFreq ?
mScalingMinFreq : _freq`. -/
def setFrequencySetpoint (minF maxF : Int) (freq : ℚ) : Int :=
  let f : Int :=
    if 1 < freq then truncToInt freq
    else if 0 ≤ freq ∧ freq ≤ 1 then truncToInt ((maxF : ℚ) * freq)
    else if freq = -1 then maxF
    else if freq = -2 then minF
    else minF
  if f < minF then minF else f

/-- `CPUAMDPStatePolicy::set_frequency` (CPUGovernor.cpp:191-197):
`-3.0` is replaced by `amd_pstate_lowest_nonlinear_freq` before delegating
to the base mapping. -/
def amdSetFrequencySetpoint (minF maxF lowestNonlinear : Int) (freq : ℚ) : Int :=
  setFrequencySetpoint minF maxF
    (if freq = -3 then (lowestNonlinear : ℚ) else freq)

/-- The frequency mapping as the specification words it (spec §4.4 table),
amended only by the clamp the code applies to every branch: the raw
per-branch value is clamped up to `scaling_min_freq` before being
written. -/
def specSetpointClamped (minF maxF : Int) (v : ℚ) : Int :=
  max minF
    (if 1 < v then truncToInt v
     else if 0 ≤ v ∧ v ≤ 1 then truncToInt ((maxF : ℚ) * v)
     else if v = -1 then maxF
     else if v = -2 then minF
     else minF)

end CPUGovernor

namespace CPUSet

/-- C `isspace` in the default locale: space (32), `\t` (9), `\n` (10),
`\v` (11), `\f` (12), `\r` (13). -/
def isSpaceC (c : Char) : Bool :=
  c.toNat = 32 || c.toNat = 9 || c.toNat = 10 || c.toNat = 11 ||
  c.toNat = 12 || c.toNat = 13

/-- Decimal digit characters. -/
def isDigitC (c : Char) : Bool := 48 ≤ c.toNat && c.toNat ≤ 57

/-- Numeric value of a digit character. -/
def digitVal (c : Char) : ℕ := c.toNat - 48

/-- Value of a run of decimal digit characters (most significant first). -/
def digitsVal (ds : List Char) : ℕ := ds.foldl (fun a c => 10 * a + digitVal c) 0

/-- `ULONG_MAX` on the 64-bit targets the program runs on. -/
def ulongMax : ℕ := 2 ^ 64 - 1

/-- The optional sign accepted in front of a number: returns whether a
`-` was seen and the characters following the sign. -/
def stripSign (s1 : List Char) : Bool × List Char :=
  match s1 with
  | '-' :: t => (true, t)
  | '+' :: t => (false, t)
  | _ => (false, s1)

/-- `strtoul(pos, &end, 10)`: skip leading whitespace, accept an optional
sign, then decimal digits.  Returns `(value, end, converted)`.  With no
digits the original `pos` is stored in `end` and `converted` is false.  On
overflow the result saturates at `ULONG_MAX`; otherwise a `-` sign wraps
the value modulo 2^64 (unsigned negation). -/
def strtoul10 (s : List Char) : ℕ × List Char × Bool :=
  let s1 := s.dropWhile fun c => isSpaceC c
  let signed : Bool × List Char := stripSign s1
  let ds := signed.2.takeWhile fun c => isDigitC c
  if ds = [] then (0, s, false)
  else
    let v := digitsVal ds
    let value :=
      if ulongMax < v then ulongMax
      else if signed.1 then (2 ^ 64 - v) % 2 ^ 64
      else v
    (value, signed.2.drop ds.length, true)

/-- The exceptions `CPUSet::parse` throws (CPUSet.cpp:114-176). -/
inductive ParseError where
  /-- `std::invalid_argument("Missing CPU number in cpuset string")` -/
  | missingNumber
  /-- `std::invalid_argument("Missing end of range in cpuset string")` -/
  | missingRangeEnd
  /-- `std::range_error("CPU #n out of range in cpuset string")` -/
  | outOfRange (n : ℕ)
  /-- `std::out_of_range("Invalid CPU range a-b in cpuset string")` -/
  | reversedRange (a b : ℕ)
  /-- `std::invalid_argument("Invalid syntax in cpuset string")` -/
  | invalidSyntax
  /-- `std::invalid_argument("Invalid character ...")` -/
  | invalidChar (c : Char)
deriving DecidableEq

/-- One iteration of the `while (true)` loop of `CPUSet::parse`
(CPUSet.cpp:121-175).  `pos` is the current read position, `atStart`
records whether `pos` still equals the start of the whole string (the
`end == str` pointer comparison), `start` is the pending range start (`-1`
encoded as `none`), `acc` the bits set so far.  `fuel` bounds the number of
iterations; each continuing iteration consumes at least two characters, so
`length + 1` fuel never runs out. -/
def parseLoop (maxCPUs : ℕ) :
    ℕ → List Char → Bool → Option ℕ → Finset ℕ → Except ParseError (Finset ℕ)
  | 0, _, _, _, _ => .error .invalidSyntax
  | fuel + 1, pos, atStart, start, acc =>
    match strtoul10 pos with
    | (n, rest, conv) =>
      if conv = false then
        -- No valid number at position.
        if atStart = true ∧ rest = [] then .ok acc
        else
          match start with
          | none => .error .missingNumber
          | some _ => .error .missingRangeEnd
      else if maxCPUs ≤ n then .error (.outOfRange n)
      else
        match rest, start with
        | [], none => .ok (insert n acc)
        | [], some s =>
          if s > n then .error (.reversedRange s n) else .ok (acc ∪ Finset.Icc s n)
        | ',' :: tl, none => parseLoop maxCPUs fuel tl false none (insert n acc)
        | ',' :: tl, some s =>
          if s > n then .error (.reversedRange s n)
          else parseLoop maxCPUs fuel tl false none (acc ∪ Finset.Icc s n)
        | '-' :: tl, none => parseLoop maxCPUs fuel tl false (some n) acc
        | '-' :: _, some _ => .error .invalidSyntax
        | c :: _, _ => .error (.invalidChar c)

/-- `CPUSet::parse` (CPUSet.cpp:114-176): clear the set, then run the
scanning loop from the start of the string. -/
def parse (maxCPUs : ℕ) (s : String) : Except ParseError Mask :=
  parseLoop maxCPUs (s.length + 1) s.data true none ∅

/-- The run decomposition computed by the nested loops of
`CPUSet::to_string` (CPUSet.cpp:178-206), as a single fueled pass:
`cur = some s` corresponds to being inside the inner loop that started a
run at `s` (every index in `[s, n)` is set); `cur = none` to the outer
scan.  When the scan passes `maxCPUs` (fuel exhausted) a pending run is
emitted with end `n - 1`, exactly as the inner loop exiting at
`n = mMaxCPUs` does. -/
def runsAux (m : Mask) : ℕ → ℕ → Option ℕ → List (ℕ × ℕ)
  | n, 0, cur =>
    (match cur with
     | some s => [(s, n - 1)]
     | none => [])
  | n, fuel + 1, cur =>
    match cur with
    | none =>
      if n ∈ m then runsAux m (n + 1) fuel (some n)
      else runsAux m (n + 1) fuel none
    | some s =>
      if n ∈ m then runsAux m (n + 1) fuel (some s)
      else (s, n - 1) :: runsAux m (n + 1) fuel none

/-- The maximal runs of consecutive set bits below `maxCPUs`, low to high. -/
def runs (maxCPUs : ℕ) (m : Mask) : List (ℕ × ℕ) := runsAux m 0 maxCPUs none

/-- Decimal digit character. -/
def digitChar10 (d : ℕ) : Char :=
  match d with
  | 0 => '0' | 1 => '1' | 2 => '2' | 3 => '3' | 4 => '4'
  | 5 => '5' | 6 => '6' | 7 => '7' | 8 => '8' | _ => '9'

/-- Decimal digits of `n`, most significant first (`std::to_string`).
`fuel` bounds the recursion depth; `n + 1` is always enough. -/
def natDigitsAux : ℕ → ℕ → List Char
  | 0, _ => []
  | fuel + 1, n =>
    if n < 10 then [digitChar10 n]
    else natDigitsAux fuel (n / 10) ++ [digitChar10 (n % 10)]

/-- `std::to_string` for a nonnegative integer. -/
def natToString (n : ℕ) : String := ⟨natDigitsAux (n + 1) n⟩

/-- An element of the list grammar: a bare CPU number or a range `a-b`. -/
inductive CPUItem where
  | single (n : ℕ)
  | range (a b : ℕ)
deriving DecidableEq

/-- Textual form of one item. -/
def renderItem : CPUItem → String
  | .single n => natToString n
  | .range a b => natToString a ++ "-" ++ natToString b

/-- Comma-separated rendering of a list of items (the list grammar); the
`first` flag of the source loop produces exactly this interleaving. -/
def renderItems : List CPUItem → String
  | [] => ""
  | [it] => renderItem it
  | it :: its => renderItem it ++ "," ++ renderItems its

/-- The bits an item denotes. -/
def itemBits : CPUItem → Finset ℕ
  | .single n => {n}
  | .range a b => Finset.Icc a b

/-- The bits a list of items denotes. -/
def itemsBits (its : List CPUItem) : Finset ℕ :=
  its.foldr (fun it s => itemBits it ∪ s) ∅

/-- A run `(a, b)` is emitted as the bare number when `a = b`
(`start == n - 1` in the source) and as `a-b` otherwise. -/
def itemOfRun (r : ℕ × ℕ) : CPUItem :=
  if r.1 = r.2 then .single r.1 else .range r.1 r.2

/-- `CPUSet::to_string` (CPUSet.cpp:178-206): emit the runs low to high,
separated by commas (the `first` flag in the source produces exactly the
comma-interleaving of `String.intercalate`). -/
def to_string (maxCPUs : ℕ) (m : Mask) : String :=
  renderItems ((runs maxCPUs m).map itemOfRun)

/-- Model of a `std::istream`: the unread characters and the failure /
end-of-file state bits (badbit never arises in this model). -/
structure IStream where
  remaining : List Char
  failbit : Bool
  eofbit : Bool
deriving DecidableEq

/-- `std::ios::good()`. -/
def IStream.good (s : IStream) : Bool := !s.failbit && !s.eofbit

/-- `INT_MAX` for the `int` extraction target. -/
def intMax : Int := 2 ^ 31 - 1

/-- `INT_MIN`. -/
def intMin : Int := -(2 ^ 31)

/-- Formatted extraction `in >> cpu` for `int`: skip whitespace, accept an
optional sign and decimal digits.  No digits (or end of input) sets
failbit; reading up to the end of input sets eofbit; a value outside
`int`'s range stores the clamped bound and sets failbit (C++11
`num_get`). -/
def extractInt (s : IStream) : Int × IStream :=
  let rem := s.remaining.dropWhile fun c => isSpaceC c
  match rem with
  | [] => (0, ⟨[], true, true⟩)
  | _ :: _ =>
    let signed : Bool × List Char := stripSign rem
    let ds := signed.2.takeWhile fun c => isDigitC c
    if ds = [] then (0, ⟨signed.2, true, signed.2.isEmpty⟩)
    else
      let v : Int := if signed.1 then -(digitsVal ds : Int) else (digitsVal ds : Int)
      let rest := signed.2.drop ds.length
      if intMax < v then (intMax, ⟨rest, true, rest.isEmpty⟩)
      else if v < intMin then (intMin, ⟨rest, true, rest.isEmpty⟩)
      else (v, ⟨rest, false, rest.isEmpty⟩)

/-- The `done:` epilogue of `operator>>` (CPUSet.cpp:285-289): the target
is replaced by the parsed set only when the stream has not failed; `none`
models "target left untouched". -/
def finishStream (s : IStream) (acc : Finset ℕ) : IStream × Option (Finset ℕ) :=
  (s, if s.failbit then none else some acc)

/-- The `while (in.good())` loop of `operator>>` (CPUSet.cpp:220-275).
Each iteration extracts an `int`, validates it, reads the following
character (taking `eof` without a read when the extraction already hit the
end), and either starts a range on `-`, or materialises the pending
singleton / range and continues on `,`, stopping with an `unget` at any
other character.  A reversed range sets failbit; the loop condition then
terminates the loop.  `fuel` bounds the iterations; every continuing
iteration consumes at least one character. -/
def streamLoop (maxCPUs : ℕ) :
    ℕ → IStream → Option ℕ → Finset ℕ → IStream × Option (Finset ℕ)
  | 0, s, _, acc => finishStream s acc
  | fuel + 1, s, start, acc =>
    if s.good = false then finishStream s acc
    else
      match extractInt s with
      | (cpu, s1) =>
        if s1.failbit then finishStream s1 acc
        else if cpu < 0 ∨ (maxCPUs : Int) ≤ cpu then
          finishStream { s1 with failbit := true } acc
        else
          -- Check if there is a character following the number.
          match (if s1.eofbit then (none, s1)
                 else
                   match s1.remaining with
                   | [] => (none, { s1 with failbit := true, eofbit := true })
                   | c :: tl => (some c, { s1 with remaining := tl })) with
          | (c, s2) =>
            if s2.failbit then finishStream s2 acc
            else if c = some '-' then
              match start with
              | some _ => streamLoop maxCPUs fuel { s2 with failbit := true } start acc
              | none => streamLoop maxCPUs fuel s2 (some cpu.toNat) acc
            else
              match (match start with
                     | none => (insert cpu.toNat acc, none, s2)
                     | some st =>
                       if st > cpu.toNat then (acc, some st, { s2 with failbit := true })
                       else (acc ∪ Finset.Icc st cpu.toNat, none, s2)) with
              | (acc2, start2, s3) =>
                match c with
                | some ch =>
                  if ch = ',' then streamLoop maxCPUs fuel s3 start2 acc2
                  else finishStream { s3 with remaining := ch :: s3.remaining } acc2
                | none => streamLoop maxCPUs fuel s3 start2 acc2

/-- `operator>>(std::istream&, CPUSet&)` (CPUSet.cpp:213-290) on a fresh
stream holding `input`.  The sentry skips leading whitespace; if it hits
end-of-file before any input the failbit it raised is cleared again
(keeping eofbit) and the empty set is a valid result.  Returns the final
stream state and `some mask` when the target was assigned. -/
def streamRead (maxCPUs : ℕ) (input : String) : IStream × Option Mask :=
  let rem := input.data.dropWhile fun c => isSpaceC c
  if rem.isEmpty then (⟨[], false, true⟩, some ∅)
  else streamLoop maxCPUs (input.length + 1) ⟨rem, false, false⟩ none ∅

/-- The bits denoted by a list of runs. -/
def runsBits (rs : List (ℕ × ℕ)) : Finset ℕ :=
  rs.foldr (fun r s => Finset.Icc r.1 r.2 ∪ s) ∅

/-- Well-formedness of a grammar item below `maxCPUs`. -/
def validItem (maxCPUs : ℕ) : CPUItem → Prop
  | .single n => n < maxCPUs
  | .range a b => a ≤ b ∧ b < maxCPUs

instance (maxCPUs : ℕ) (it : CPUItem) : Decidable (validItem maxCPUs it) :=
  match it with
  | .single n => inferInstanceAs (Decidable (n < maxCPUs))
  | .range a b => inferInstanceAs (Decidable (a ≤ b ∧ b < maxCPUs))

end CPUSet

/-- Whether an `Except` carries a success. -/
def exceptIsOk {ε α : Type} : Except ε α → Bool
  | .ok _ => true
  | .error _ => false

namespace CPUSet

lemma firstAux_empty (fuel : ℕ) : ∀ i, firstAux (∅ : Mask) i fuel = -1 := by
  induction fuel with
  | zero => intro i; rfl
  | succ fuel ih => intro i; simp [firstAux, ih]

lemma lastAux_empty : ∀ k, lastAux (∅ : Mask) k = -1 := by
  intro k
  induction k with
  | zero => rfl
  | succ k ih => simp [lastAux, ih]

lemma firstAux_eq_min :
    ∀ (fuel i : ℕ) (m : Mask) (hne : m.Nonempty),
      (∀ j ∈ m, i ≤ j) → m.min' hne < i + fuel →
      firstAux m i fuel = (m.min' hne : Int) := by
  intro fuel
  induction fuel with
  | zero =>
    intro i m hne hlo hlt
    have := hlo _ (m.min'_mem hne)
    omega
  | succ fuel ih =>
    intro i m hne hlo hlt
    by_cases hi : i ∈ m
    · have h1 : m.min' hne = i :=
        le_antisymm (Finset.min'_le _ _ hi) (hlo _ (m.min'_mem hne))
      simp [firstAux, hi, h1]
    · have hlo' : ∀ j ∈ m, i + 1 ≤ j := by
        intro j hj
        rcases Nat.lt_or_ge i j with h | h
        · omega
        · have := hlo j hj
          have : j = i := le_antisymm h this
          exact absurd (this ▸ hj) hi
      have hlt' : m.min' hne < (i + 1) + fuel := by omega
      simp [firstAux, hi, ih (i + 1) m hne hlo' hlt']

lemma lastAux_eq_max :
    ∀ (k : ℕ) (m : Mask) (hne : m.Nonempty),
      (∀ j ∈ m, j < k) → lastAux m k = (m.max' hne : Int) := by
  intro k
  induction k with
  | zero =>
    intro m hne hhi
    have := hhi _ (m.max'_mem hne)
    omega
  | succ k ih =>
    intro m hne hhi
    by_cases hk : k ∈ m
    · have h1 : m.max' hne = k :=
        le_antisymm (by have := hhi _ (m.max'_mem hne); omega)
          (Finset.le_max' _ _ hk)
      simp [lastAux, hk, h1]
    · have hhi' : ∀ j ∈ m, j < k := by
        intro j hj
        have := hhi j hj
        rcases Nat.lt_or_ge j k with h | h
        · exact h
        · have : j = k := by omega
          exact absurd (this ▸ hj) hk
      simp [lastAux, hk, ih m hne hhi']

/-- Claim C10: for the empty mask, `first()` and `last()` both return `-1`;
for a non-empty mask (all of whose bits respect the `MaxCpus` invariant),
`first()` returns the smallest set index and `last()` the largest, both
strictly below `MaxCpus`. -/
theorem first_last_spec (maxCPUs : ℕ) (m : Mask) (hb : ∀ i ∈ m, i < maxCPUs) :
    (m = ∅ → first maxCPUs m = -1 ∧ last maxCPUs m = -1) ∧
    (∀ hne : m.Nonempty,
      first maxCPUs m = (m.min' hne : Int) ∧
      last maxCPUs m = (m.max' hne : Int) ∧
      m.min' hne < maxCPUs ∧ m.max' hne < maxCPUs) := by
  constructor
  · intro he
    subst he
    exact ⟨firstAux_empty maxCPUs 0, lastAux_empty maxCPUs⟩
  · intro hne
    have hmin : m.min' hne < maxCPUs := hb _ (m.min'_mem hne)
    have hmax : m.max' hne < maxCPUs := hb _ (m.max'_mem hne)
    refine ⟨?_, ?_, hmin, hmax⟩
    · exact firstAux_eq_min maxCPUs 0 m hne (fun j _ => Nat.zero_le j) (by omega)
    · exact lastAux_eq_max maxCPUs m hne (fun j hj => hb j hj)

/-- Claim C10 witness. -/
theorem first_last_spec_witness :
    first 16 ({3, 5} : Finset ℕ) = 3 ∧ last 16 ({3, 5} : Finset ℕ) = 5 := by
  obtain ⟨h1, h2, -, -⟩ :=
    (first_last_spec 16 {3, 5} (by decide)).2 ⟨3, by decide⟩
  exact ⟨h1.trans (by decide), h2.trans (by decide)⟩

end CPUSet

namespace CPUCGroup

/-- Claim C6: for masks `L` and `m` over the same `MaxCpus` with `m ⊆ L`,
`(L ⊕ m) ∩ L` computed with the mask algebra equals `L \ m`, and the
destructor's release step writes exactly this value back as the new
ledger; concretely, ledger `"0-7"` after releasing `"2-3"` becomes
`"0-1,4-7"`. -/
theorem release_identity (L m : CPUSet.Mask) (_hsub : m ⊆ L) :
    CPUSet.xorMask L m ∩ L = L \ m ∧
    releaseLedger L m = L \ m ∧
    (do
      let L0 ← CPUSet.parse 8 "0-7"
      let r0 ← CPUSet.parse 8 "2-3"
      pure (CPUSet.to_string 8 (releaseLedger L0 r0))) = Except.ok "0-1,4-7" := by
  have hx : CPUSet.xorMask L m ∩ L = L \ m := by
    ext x
    simp only [CPUSet.xorMask, Finset.mem_inter, Finset.mem_sdiff,
      Finset.mem_union]
    tauto
  exact ⟨hx, hx, by decide⟩

/-- Claim C6 witness. -/
theorem release_identity_witness :
    releaseLedger (Finset.Icc 0 7) (Finset.Icc 2 3) = {0, 1, 4, 5, 6, 7} := by
  have h := (release_identity (Finset.Icc 0 7) (Finset.Icc 2 3) (by decide)).2.1
  exact h.trans (by decide)

/-- Claim C5: the reservation step reads the ledger and the effective
mask, fails if and only if the requested mask is not a subset of the
effective mask (leaving the ledger unchanged in that case), and on success
writes back exactly `ledger ∪ requested`; in particular it does not fail
when the request intersects the current ledger. -/
theorem reserve_spec (L E R : CPUSet.Mask) :
    (exceptIsOk (reserveCPUs L E R).1 = true ↔ R ⊆ E) ∧
    (¬ R ⊆ E → (reserveCPUs L E R).2 = L) ∧
    (R ⊆ E → reserveCPUs L E R = (.ok (), L ∪ R)) := by
  unfold reserveCPUs
  by_cases h : R ∩ E = R
  · have hsub : R ⊆ E := Finset.inter_eq_left.mp h
    simp [h, hsub, exceptIsOk]
  · have hsub : ¬ R ⊆ E := fun hs => h (Finset.inter_eq_left.mpr hs)
    simp [h, hsub, exceptIsOk]

/-- Claim C5 witness: a request that overlaps the existing ledger still
succeeds and the new ledger is the union. -/
theorem reserve_spec_witness :
    reserveCPUs {0} {0, 1} {0, 1} = (.ok (), {0, 1}) := by
  have h := (reserve_spec {0} {0, 1} {0, 1}).2.2 (by decide)
  exact h.trans (by decide)

/-- Claim C1 (code bug): when `mkdir` fails during construction the
`std::system_error` propagates without releasing the reservation, and when
a later step fails the `catch` block only removes the directory — in both
cases the final ledger is `old ∪ mask`, not the pre-construction value the
specification promises. -/
theorem construct_failure_leaks_reservation :
    (construct ⟨∅, {0, 1}, false, true, "root"⟩ {0}).result = .error .mkdirFailed ∧
    (construct ⟨∅, {0, 1}, false, true, "root"⟩ {0}).ledger = {0} ∧
    (construct ⟨∅, {0, 1}, true, true, "member invalid"⟩ {0}).result
      = .error (.partitionRejected "member invalid") ∧
    (construct ⟨∅, {0, 1}, true, true, "member invalid"⟩ {0}).ledger = {0} ∧
    (construct ⟨∅, {0, 1}, true, true, "member invalid"⟩ {0}).dirExists = false ∧
    ({0} : Finset ℕ) ≠ (∅ : Finset ℕ) := by
  refine ⟨by decide, by decide, by decide, by decide, by decide, by decide⟩

end CPUCGroup

namespace RunExcl

/-- Claim C2 (code bug): a successful launch exits 0 for every child
status, and the pre-flight subset check and `std::system_error` failures
exit 1 — but a kernel rejection of the partition type and a
requested-mask-not-subset error raised inside the `CPUCGroup` constructor
are thrown as `std::runtime_error`, which `catch (std::system_error&)`
does not catch: the process terminates via `std::terminate` instead of
exiting 1. -/
theorem exit_code_behaviour :
    (∀ st : ℕ,
      runexclMain ⟨{0}, {0, 1}, ⟨∅, {0, 1}, true, true, "root"⟩, true, true, st⟩
        = .exited 0) ∧
    runexclMain ⟨{0}, {2}, ⟨∅, {0, 1}, true, true, "root"⟩, true, true, 0⟩
      = .exited 1 ∧
    runexclMain ⟨{0}, {0, 1}, ⟨∅, {0, 1}, false, true, "root"⟩, true, true, 0⟩
      = .exited 1 ∧
    runexclMain ⟨{0}, {0, 1}, ⟨∅, {0, 1}, true, true, "member invalid"⟩, true, true, 0⟩
      = .terminated ∧
    runexclMain ⟨{0}, {0, 1}, ⟨∅, {2}, true, true, "root"⟩, true, true, 0⟩
      = .terminated ∧
    MainOutcome.terminated ≠ .exited 1 := by
  constructor
  · intro st
    rfl
  · exact ⟨by decide, by decide, by decide, by decide, by decide⟩

end RunExcl

namespace CPUGovernor

/-- Claim C3 (code bug): the per-policy destructor would write back the
saved setspeed and then the saved governor, but the AMD driver teardown
calls `mPolicies.clear()` on a vector of raw pointers — no policy
destructor ever runs — and then writes the saved driver status; the
complete write trace of the teardown is the single status write, with no
policy state restored before (or after) it. -/
theorem amd_teardown_no_policy_restore :
    (∀ d : AMDDriverRec, amdDriverDtorWrites d = [(amdPstateStatusPath, d.status)]) ∧
    policyDtorWrites
        ⟨"/sys/devices/system/cpu/cpufreq/policy0", "schedutil", "2200000", 5000000, 400000⟩
      = [("/sys/devices/system/cpu/cpufreq/policy0/scaling_setspeed", "2200000"),
         ("/sys/devices/system/cpu/cpufreq/policy0/scaling_governor", "schedutil")] ∧
    amdDriverDtorWrites
        ⟨"active",
         [⟨"/sys/devices/system/cpu/cpufreq/policy0", "schedutil", "2200000", 5000000, 400000⟩]⟩
      = [("/sys/devices/system/cpu/amd_pstate/status", "active")] := by
  exact ⟨fun d => rfl, by decide, by decide⟩

/-- Claim C4 counterexample: on a policy with min 800000 and max 3000000 a
fractional request of `0.1` is written as 800000 (clamped up to the
minimum), not as `0.1 * 3000000 = 300000` as the claim states. -/
theorem setpoint_fractional_not_exact :
    setFrequencySetpoint 800000 3000000 (1 / 10) = 800000 ∧
    setFrequencySetpoint 800000 3000000 (1 / 10) ≠ 300000 := by
  refine ⟨?_, ?_⟩ <;> norm_num [setFrequencySetpoint, truncToInt]

lemma clamp_eq_max (a b : Int) : (if b < a then a else b) = max a b := by
  rcases le_or_lt a b with h | h
  · rw [if_neg (not_lt.mpr h), max_eq_right h]
  · rw [if_pos h, max_eq_left h.le]

/-- Claim C4 (amended): the setpoint is the per-branch raw value —
truncation of `v` for `v > 1`, truncation of `v * max` for `0 ≤ v ≤ 1`,
`max` for `v = -1`, `min` for `v = -2`, the lowest nonlinear frequency for
`v = -3` on the AMD specialization — clamped up to `scaling_min_freq` in
every branch; the four concrete examples of the claim hold as stated. -/
theorem setpoint_amended :
    (∀ (minF maxF : Int) (v : ℚ),
      setFrequencySetpoint minF maxF v = specSetpointClamped minF maxF v) ∧
    setFrequencySetpoint 800000 3000000 (1 / 2) = 1500000 ∧
    setFrequencySetpoint 800000 3000000 (-1) = 3000000 ∧
    setFrequencySetpoint 800000 3000000 1000000 = 1000000 ∧
    setFrequencySetpoint 800000 3000000 100 = 800000 ∧
    (∀ minF maxF lowestNonlinear : Int, (1 : ℚ) < (lowestNonlinear : ℚ) →
      amdSetFrequencySetpoint minF maxF lowestNonlinear (-3)
        = max minF lowestNonlinear) := by
  refine ⟨?_, by norm_num [setFrequencySetpoint, truncToInt],
    by norm_num [setFrequencySetpoint, truncToInt],
    by norm_num [setFrequencySetpoint, truncToInt],
    by norm_num [setFrequencySetpoint, truncToInt], ?_⟩
  · intro minF maxF v
    simp only [setFrequencySetpoint, specSetpointClamped]
    exact clamp_eq_max _ _
  · intro minF maxF lnl h1
    have hsel : (if (-3 : ℚ) = -3 then (lnl : ℚ) else -3) = (lnl : ℚ) := if_pos rfl
    unfold amdSetFrequencySetpoint
    rw [hsel]
    simp only [setFrequencySetpoint]
    rw [if_pos h1]
    have hpos : ¬ ((lnl : ℚ) < 0) := fun h => absurd (h1.trans h) (by norm_num)
    have htr : truncToInt (lnl : ℚ) = lnl := by
      unfold truncToInt
      rw [if_neg hpos]
      exact Int.floor_intCast lnl
    rw [htr]
    exact clamp_eq_max _ _

/-- Claim C4 witness: the AMD `-3` request on a policy whose lowest
nonlinear frequency is above the minimum. -/
theorem setpoint_amended_witness :
    amdSetFrequencySetpoint 400000 5000000 1200000 (-3) = 1200000 := by
  have h := setpoint_amended.2.2.2.2.2 400000 5000000 1200000 (by norm_num)
  exact h.trans (by norm_num)

end CPUGovernor

namespace CPUSet

lemma digit_not_space {c : Char} (h : isDigitC c = true) : isSpaceC c = false := by
  simp only [isDigitC, Bool.and_eq_true, decide_eq_true_eq] at h
  simp only [isSpaceC, Bool.or_eq_false_iff, decide_eq_false_iff_not]
  omega

lemma digit_ne {c : Char} (h : isDigitC c = true) : c ≠ '-' ∧ c ≠ '+' ∧ c ≠ ',' := by
  refine ⟨fun hc => ?_, fun hc => ?_, fun hc => ?_⟩ <;> subst hc <;>
    exact absurd h (by decide)

lemma isDigitC_digitChar10 (d : ℕ) : isDigitC (digitChar10 d) = true := by
  unfold digitChar10
  split <;> decide

lemma digitVal_digitChar10 {d : ℕ} (h : d < 10) : digitVal (digitChar10 d) = d := by
  interval_cases d <;> decide

lemma natDigitsAux_all_digit :
    ∀ (fuel n : ℕ) (c : Char), c ∈ natDigitsAux fuel n → isDigitC c = true := by
  intro fuel
  induction fuel with
  | zero => intro n c hc; simp [natDigitsAux] at hc
  | succ fuel ih =>
    intro n c hc
    unfold natDigitsAux at hc
    split at hc
    · rw [List.mem_singleton] at hc
      subst hc
      exact isDigitC_digitChar10 _
    · rw [List.mem_append] at hc
      rcases hc with hc | hc
      · exact ih _ _ hc
      · rw [List.mem_singleton] at hc
        subst hc
        exact isDigitC_digitChar10 _

lemma natDigitsAux_ne_nil (fuel n : ℕ) : natDigitsAux (fuel + 1) n ≠ [] := by
  unfold natDigitsAux
  split
  · simp
  · simp

lemma digitsVal_append_singleton (xs : List Char) (c : Char) :
    digitsVal (xs ++ [c]) = 10 * digitsVal xs + digitVal c := by
  simp [digitsVal, List.foldl_append]

lemma natDigitsAux_val :
    ∀ (fuel n : ℕ), n < 10 ^ fuel → digitsVal (natDigitsAux fuel n) = n := by
  intro fuel
  induction fuel with
  | zero =>
    intro n h
    interval_cases n
    rfl
  | succ fuel ih =>
    intro n h
    unfold natDigitsAux
    split
    · rename_i h10
      show digitsVal [digitChar10 n] = n
      simp [digitsVal, digitVal_digitChar10 h10]
    · rename_i h10
      rw [digitsVal_append_singleton, ih (n / 10) ?_,
        digitVal_digitChar10 (Nat.mod_lt _ (by norm_num))]
      · omega
      · have h2 : n < 10 * 10 ^ fuel := by
          rw [pow_succ] at h
          omega
        exact Nat.div_lt_of_lt_mul h2

lemma lt_ten_pow (n : ℕ) : n < 10 ^ (n + 1) := by
  induction n with
  | zero => norm_num
  | succ n ih =>
    have hp : 0 < 10 ^ (n + 1) := pow_pos (by norm_num) _
    have h1 : 10 ^ (n + 2) = 10 ^ (n + 1) * 10 := by rw [pow_succ]
    omega

lemma natDigits_val_self (n : ℕ) : digitsVal (natDigitsAux (n + 1) n) = n :=
  natDigitsAux_val (n + 1) n (lt_ten_pow n)

end CPUSet

namespace CPUSet

lemma dropWhile_of_head_false {p : Char → Bool} (l : List Char)
    (h : ∀ c, l.head? = some c → p c = false) : l.dropWhile p = l := by
  cases l with
  | nil => rfl
  | cons a t => simp [List.dropWhile, h a rfl]

lemma takeWhile_all_append :
    ∀ (ds rest : List Char) {p : Char → Bool}, (∀ c ∈ ds, p c = true) →
      (∀ c, rest.head? = some c → p c = false) →
      (ds ++ rest).takeWhile p = ds := by
  intro ds
  induction ds with
  | nil =>
    intro rest p _ hrest
    cases rest with
    | nil => rfl
    | cons a t => simp [List.takeWhile, hrest a rfl]
  | cons d ds ih =>
    intro rest p hds hrest
    have hd := hds d (by simp)
    simp only [List.cons_append, List.takeWhile_cons, hd, if_true]
    rw [ih rest (fun c hc => hds c (by simp [hc])) hrest]

lemma stripSign_default {d : Char} (t : List Char) (h1 : d ≠ '-') (h2 : d ≠ '+') :
    stripSign (d :: t) = (false, d :: t) := by
  unfold stripSign
  split
  · rename_i heq
    injection heq with ha _
    exact absurd ha h1
  · rename_i heq
    injection heq with ha _
    exact absurd ha h2
  · rfl

lemma strtoul10_digits (ds rest : List Char) (hne : ds ≠ [])
    (hds : ∀ c ∈ ds, isDigitC c = true)
    (hrest : ∀ c, rest.head? = some c → isDigitC c = false)
    (hval : digitsVal ds ≤ ulongMax) :
    strtoul10 (ds ++ rest) = (digitsVal ds, rest, true) := by
  obtain ⟨d, ds', rfl⟩ : ∃ d t, ds = d :: t := by
    cases ds with
    | nil => exact absurd rfl hne
    | cons d t => exact ⟨d, t, rfl⟩
  have hd : isDigitC d = true := hds d (by simp)
  have hsp : isSpaceC d = false := digit_not_space hd
  obtain ⟨hdm, hdp, -⟩ := digit_ne hd
  have htake : ((d :: ds') ++ rest).takeWhile (fun c => isDigitC c) = d :: ds' :=
    takeWhile_all_append _ _ hds hrest
  have hdrop0 : ((d :: ds') ++ rest).dropWhile (fun c => isSpaceC c)
      = (d :: ds') ++ rest := by
    rw [List.cons_append]
    simp [List.dropWhile, hsp]
  have hsign : stripSign ((d :: ds') ++ rest) = (false, (d :: ds') ++ rest) := by
    rw [List.cons_append]
    exact stripSign_default _ hdm hdp
  simp only [strtoul10, hdrop0, hsign, htake]
  rw [if_neg (by simp), if_neg (not_lt.mpr hval), List.drop_left]
  simp

end CPUSet

namespace CPUSet

lemma drop_takeWhile_length {p : Char → Bool} :
    ∀ l : List Char, l.drop (l.takeWhile p).length = l.dropWhile p := by
  intro l
  induction l with
  | nil => rfl
  | cons a t ih =>
    by_cases hp : p a
    · simp [List.takeWhile_cons, List.dropWhile_cons, hp, ih]
    · simp [List.takeWhile_cons, List.dropWhile_cons, hp]

lemma strtoul10_neg (ds rest : List Char) (hne : ds ≠ [])
    (hds : ∀ c ∈ ds, isDigitC c = true)
    (hrest : ∀ c, rest.head? = some c → isDigitC c = false)
    (hval : digitsVal ds ≤ ulongMax) :
    strtoul10 ('-' :: (ds ++ rest)) = ((2 ^ 64 - digitsVal ds) % 2 ^ 64, rest, true) := by
  have htake : (ds ++ rest).takeWhile (fun c => isDigitC c) = ds :=
    takeWhile_all_append _ _ hds hrest
  have hdrop0 : ('-' :: (ds ++ rest)).dropWhile (fun c => isSpaceC c)
      = '-' :: (ds ++ rest) := rfl
  have hsign : stripSign ('-' :: (ds ++ rest)) = (true, ds ++ rest) := rfl
  simp only [strtoul10, hdrop0, hsign, htake]
  rw [if_neg hne, if_neg (not_lt.mpr hval), List.drop_left]
  simp

lemma strtoul10_conv_false {s : List Char} {n : ℕ} {rest : List Char}
    (h : strtoul10 s = (n, rest, false)) : rest = s := by
  simp only [strtoul10] at h
  split at h
  · injection h with h1 h2
    injection h2 with h2a h2b
    exact h2a.symm
  · injection h with h1 h2
    injection h2 with h2a h2b
    cases h2b

lemma strtoul10_decomp {s : List Char} {n : ℕ} {rest : List Char}
    (h : strtoul10 s = (n, rest, true)) :
    ∃ pre ds, s = pre ++ ds ++ rest ∧ ds ≠ [] ∧ ∀ c ∈ ds, isDigitC c = true := by
  simp only [strtoul10] at h
  rcases hsign : stripSign (s.dropWhile fun c => isSpaceC c) with ⟨neg, s2⟩
  rw [hsign] at h
  have hs2 : ∃ sp, s.dropWhile (fun c => isSpaceC c) = sp ++ s2 := by
    unfold stripSign at hsign
    revert hsign
    split
    · rename_i t heq
      intro hsign
      injection hsign with _ h2
      exact ⟨['-'], by rw [heq, h2]; rfl⟩
    · rename_i t heq
      intro hsign
      injection hsign with _ h2
      exact ⟨['+'], by rw [heq, h2]; rfl⟩
    · intro hsign
      injection hsign with _ h2
      exact ⟨[], by rw [← h2]; simp⟩
  obtain ⟨sp, hsp⟩ := hs2
  by_cases hnil : s2.takeWhile (fun c => isDigitC c) = []
  · rw [if_pos hnil] at h
    injection h with h1 h2
    injection h2 with h2a h2b
    cases h2b
  · rw [if_neg hnil] at h
    injection h with h1 h2
    injection h2 with h2a h2b
    refine ⟨s.takeWhile (fun c => isSpaceC c) ++ sp,
      s2.takeWhile (fun c => isDigitC c), ?_, hnil, ?_⟩
    · have hs2split : s2.takeWhile (fun c => isDigitC c) ++ rest = s2 := by
        rw [← h2a, drop_takeWhile_length]
        exact List.takeWhile_append_dropWhile _ s2
      calc s = s.takeWhile (fun c => isSpaceC c) ++ s.dropWhile (fun c => isSpaceC c) :=
            (List.takeWhile_append_dropWhile _ s).symm
        _ = s.takeWhile (fun c => isSpaceC c) ++ (sp ++ s2) := by rw [hsp]
        _ = s.takeWhile (fun c => isSpaceC c) ++ (sp ++ (s2.takeWhile (fun c => isDigitC c) ++ rest)) := by
            rw [hs2split]
        _ = (s.takeWhile (fun c => isSpaceC c) ++ sp) ++ s2.takeWhile (fun c => isDigitC c) ++ rest := by
            simp [List.append_assoc]
    · intro c hc
      exact List.mem_takeWhile_imp hc

lemma exists_getLast?_mem : ∀ (l : List Char), l ≠ [] → ∃ c, l.getLast? = some c ∧ c ∈ l := by
  intro l
  induction l with
  | nil => intro h; exact absurd rfl h
  | cons a t ih =>
    intro _
    cases t with
    | nil => exact ⟨a, rfl, by simp⟩
    | cons b bs =>
      obtain ⟨c, hc, hmem⟩ := ih (by simp)
      exact ⟨c, by rw [List.getLast?_cons_cons]; exact hc, by simp [hmem]⟩

lemma getLast?_append_right (l₁ : List Char) {l₂ : List Char} (h : l₂ ≠ []) :
    (l₁ ++ l₂).getLast? = l₂.getLast? := by
  induction l₁ with
  | nil => rfl
  | cons a t ih =>
    obtain ⟨b, bs, heq⟩ : ∃ b bs, t ++ l₂ = b :: bs := by
      cases hte : t ++ l₂ with
      | nil => exact absurd (List.append_eq_nil.mp hte).2 h
      | cons b bs => exact ⟨b, bs, rfl⟩
    rw [List.cons_append, heq, List.getLast?_cons_cons, ← heq, ih]

end CPUSet

namespace CPUSet

lemma renderItem_single_data (n : ℕ) :
    (renderItem (.single n)).data = natDigitsAux (n + 1) n := rfl

lemma renderItem_range_data (a b : ℕ) :
    (renderItem (.range a b)).data
      = natDigitsAux (a + 1) a ++ '-' :: natDigitsAux (b + 1) b := by
  show (natToString a ++ "-" ++ natToString b).data = _
  rw [String.data_append, String.data_append]
  simp [natToString]

lemma renderItems_cons_data (it : CPUItem) {its : List CPUItem} (h : its ≠ []) :
    (renderItems (it :: its)).data
      = (renderItem it).data ++ ',' :: (renderItems its).data := by
  cases its with
  | nil => exact absurd rfl h
  | cons b bs =>
    show (renderItem it ++ "," ++ renderItems (b :: bs)).data = _
    rw [String.data_append, String.data_append]
    simp

lemma renderItems_single_data (it : CPUItem) :
    (renderItems [it]).data = (renderItem it).data := rfl

lemma digitsVal_le_ulongMax {n maxCPUs : ℕ} (hmax : maxCPUs ≤ 2 ^ 31)
    (hn : n < maxCPUs) : digitsVal (natDigitsAux (n + 1) n) ≤ ulongMax := by
  rw [natDigits_val_self]
  have h31 : (2 : ℕ) ^ 31 ≤ ulongMax := by norm_num [ulongMax]
  omega

lemma natDigits_length_pos (n : ℕ) : 0 < (natDigitsAux (n + 1) n).length :=
  List.length_pos.mpr (natDigitsAux_ne_nil n n)

lemma insert_union_eq (acc : Finset ℕ) (n : ℕ) (B : Finset ℕ) :
    insert n acc ∪ B = acc ∪ ({n} ∪ B) := by
  ext x
  simp [or_comm, or_assoc, or_left_comm]

lemma itemsBits_cons (it : CPUItem) (its : List CPUItem) :
    itemsBits (it :: its) = itemBits it ∪ itemsBits its := rfl

lemma parseLoop_renderItems :
    ∀ (its : List CPUItem) (maxCPUs : ℕ), maxCPUs ≤ 2 ^ 31 →
      its ≠ [] → (∀ it ∈ its, validItem maxCPUs it) →
      ∀ (fuel : ℕ) (atStart : Bool) (acc : Finset ℕ),
        (renderItems its).data.length < fuel →
        parseLoop maxCPUs fuel (renderItems its).data atStart none acc
          = .ok (acc ∪ itemsBits its) := by
  intro its
  induction its with
  | nil => intro _ _ h; exact absurd rfl h
  | cons it its ih =>
    intro maxCPUs hmax _ hvalid fuel atStart acc hfuel
    have hvit := hvalid it (by simp)
    by_cases hits : its = []
    · -- last item of the list
      subst hits
      obtain ⟨f, rfl⟩ : ∃ f, fuel = f + 1 := by
        cases fuel with
        | zero => omega
        | succ f => exact ⟨f, rfl⟩
      rw [renderItems_single_data] at hfuel ⊢
      cases it with
      | single n =>
        have hn : n < maxCPUs := hvit
        rw [renderItem_single_data] at hfuel ⊢
        have hstr : strtoul10 (natDigitsAux (n + 1) n) = (n, [], true) := by
          have h0 := strtoul10_digits (natDigitsAux (n + 1) n) []
            (natDigitsAux_ne_nil n n) (fun c hc => natDigitsAux_all_digit _ _ c hc)
            (fun c hc => by cases hc) (digitsVal_le_ulongMax hmax hn)
          rw [List.append_nil] at h0
          rw [h0, natDigits_val_self]
        have hred : parseLoop maxCPUs (f + 1) (natDigitsAux (n + 1) n) atStart none acc
            = .ok (insert n acc) := by
          simp [parseLoop, hstr, Nat.not_le.mpr hn]
        rw [hred]
        congr 1
        ext x
        simp [itemsBits, itemBits, or_comm]
      | range a b =>
        obtain ⟨hab, hb⟩ : a ≤ b ∧ b < maxCPUs := hvit
        have ha : a < maxCPUs := lt_of_le_of_lt hab hb
        rw [renderItem_range_data] at hfuel ⊢
        have hstr1 : strtoul10 (natDigitsAux (a + 1) a ++ '-' :: natDigitsAux (b + 1) b)
            = (a, '-' :: natDigitsAux (b + 1) b, true) := by
          have h0 := strtoul10_digits (natDigitsAux (a + 1) a)
            ('-' :: natDigitsAux (b + 1) b)
            (natDigitsAux_ne_nil a a) (fun c hc => natDigitsAux_all_digit _ _ c hc)
            (fun c hc => by injection hc with hc; subst hc; decide)
            (digitsVal_le_ulongMax hmax ha)
          rw [h0, natDigits_val_self]
        have hstr2 : strtoul10 (natDigitsAux (b + 1) b) = (b, [], true) := by
          have h0 := strtoul10_digits (natDigitsAux (b + 1) b) []
            (natDigitsAux_ne_nil b b) (fun c hc => natDigitsAux_all_digit _ _ c hc)
            (fun c hc => by cases hc) (digitsVal_le_ulongMax hmax hb)
          rw [List.append_nil] at h0
          rw [h0, natDigits_val_self]
        have hla := natDigits_length_pos a
        have hlb := natDigits_length_pos b
        rw [List.length_append, List.length_cons] at hfuel
        obtain ⟨f', rfl⟩ : ∃ f', f = f' + 1 := by
          cases f with
          | zero => omega
          | succ f' => exact ⟨f', rfl⟩
        have hred1 : parseLoop maxCPUs (f' + 1 + 1)
            (natDigitsAux (a + 1) a ++ '-' :: natDigitsAux (b + 1) b) atStart none acc
            = parseLoop maxCPUs (f' + 1) (natDigitsAux (b + 1) b) false (some a) acc := by
          simp [parseLoop, hstr1, Nat.not_le.mpr ha]
        have hred2 : parseLoop maxCPUs (f' + 1) (natDigitsAux (b + 1) b) false (some a) acc
            = .ok (acc ∪ Finset.Icc a b) := by
          simp [parseLoop, hstr2, Nat.not_le.mpr hb, Nat.not_lt.mpr hab]
        rw [hred1, hred2]
        congr 1
        ext x
        simp [itemsBits, itemBits]
    · -- an item followed by a comma and further items
      have hvtail : ∀ x ∈ its, validItem maxCPUs x := fun x hx => hvalid x (by simp [hx])
      obtain ⟨f, rfl⟩ : ∃ f, fuel = f + 1 := by
        cases fuel with
        | zero => omega
        | succ f => exact ⟨f, rfl⟩
      rw [renderItems_cons_data it hits] at hfuel ⊢
      cases it with
      | single n =>
        have hn : n < maxCPUs := hvit
        rw [renderItem_single_data] at hfuel ⊢
        have hstr : strtoul10 (natDigitsAux (n + 1) n ++ ',' :: (renderItems its).data)
            = (n, ',' :: (renderItems its).data, true) := by
          have h0 := strtoul10_digits (natDigitsAux (n + 1) n)
            (',' :: (renderItems its).data)
            (natDigitsAux_ne_nil n n) (fun c hc => natDigitsAux_all_digit _ _ c hc)
            (fun c hc => by injection hc with hc; subst hc; decide)
            (digitsVal_le_ulongMax hmax hn)
          rw [h0, natDigits_val_self]
        have hln := natDigits_length_pos n
        rw [List.length_append, List.length_cons] at hfuel
        have hred : parseLoop maxCPUs (f + 1)
            (natDigitsAux (n + 1) n ++ ',' :: (renderItems its).data) atStart none acc
            = parseLoop maxCPUs f (renderItems its).data false none (insert n acc) := by
          simp [parseLoop, hstr, Nat.not_le.mpr hn]
        rw [hred, ih maxCPUs hmax hits hvtail f false (insert n acc) (by omega)]
        rw [itemsBits_cons]
        congr 1
        exact insert_union_eq acc n (itemsBits its)
      | range a b =>
        obtain ⟨hab, hb⟩ : a ≤ b ∧ b < maxCPUs := hvit
        have ha : a < maxCPUs := lt_of_le_of_lt hab hb
        rw [renderItem_range_data] at hfuel ⊢
        rw [List.append_assoc, List.cons_append] at hfuel ⊢
        have hstr1 : strtoul10 (natDigitsAux (a + 1) a
              ++ '-' :: (natDigitsAux (b + 1) b ++ ',' :: (renderItems its).data))
            = (a, '-' :: (natDigitsAux (b + 1) b ++ ',' :: (renderItems its).data), true) := by
          have h0 := strtoul10_digits (natDigitsAux (a + 1) a)
            ('-' :: (natDigitsAux (b + 1) b ++ ',' :: (renderItems its).data))
            (natDigitsAux_ne_nil a a) (fun c hc => natDigitsAux_all_digit _ _ c hc)
            (fun c hc => by injection hc with hc; subst hc; decide)
            (digitsVal_le_ulongMax hmax ha)
          rw [h0, natDigits_val_self]
        have hstr2 : strtoul10 (natDigitsAux (b + 1) b ++ ',' :: (renderItems its).data)
            = (b, ',' :: (renderItems its).data, true) := by
          have h0 := strtoul10_digits (natDigitsAux (b + 1) b)
            (',' :: (renderItems its).data)
            (natDigitsAux_ne_nil b b) (fun c hc => natDigitsAux_all_digit _ _ c hc)
            (fun c hc => by injection hc with hc; subst hc; decide)
            (digitsVal_le_ulongMax hmax hb)
          rw [h0, natDigits_val_self]
        have hla := natDigits_length_pos a
        have hlb := natDigits_length_pos b
        rw [List.length_append, List.length_cons, List.length_append,
          List.length_cons] at hfuel
        obtain ⟨f', rfl⟩ : ∃ f', f = f' + 1 := by
          cases f with
          | zero => omega
          | succ f' => exact ⟨f', rfl⟩
        have hred1 : parseLoop maxCPUs (f' + 1 + 1)
            (natDigitsAux (a + 1) a
              ++ '-' :: (natDigitsAux (b + 1) b ++ ',' :: (renderItems its).data))
            atStart none acc
            = parseLoop maxCPUs (f' + 1)
              (natDigitsAux (b + 1) b ++ ',' :: (renderItems its).data)
              false (some a) acc := by
          simp [parseLoop, hstr1, Nat.not_le.mpr ha]
        have hred2 : parseLoop maxCPUs (f' + 1)
            (natDigitsAux (b + 1) b ++ ',' :: (renderItems its).data)
            false (some a) acc
            = parseLoop maxCPUs f' (renderItems its).data false none
              (acc ∪ Finset.Icc a b) := by
          simp [parseLoop, hstr2, Nat.not_le.mpr hb, Nat.not_lt.mpr hab]
        rw [hred1, hred2,
          ih maxCPUs hmax hits hvtail f' false (acc ∪ Finset.Icc a b) (by omega)]
        rw [itemsBits_cons]
        congr 1
        exact Finset.union_assoc acc (Finset.Icc a b) (itemsBits its)

end CPUSet

namespace CPUSet

lemma runsAux_bits :
    ∀ (fuel n : ℕ) (m : Mask), (∀ i ∈ m, i < n + fuel) →
      (runsBits (runsAux m n fuel none) = m.filter (fun i => n ≤ i)) ∧
      (∀ s, s < n →
        runsBits (runsAux m n fuel (some s))
          = Finset.Icc s (n - 1) ∪ m.filter (fun i => n ≤ i)) := by
  intro fuel
  induction fuel with
  | zero =>
    intro n m hb
    have hfilter : m.filter (fun i => n ≤ i) = ∅ := by
      ext x
      simp only [Finset.mem_filter, Finset.not_mem_empty, iff_false, not_and]
      intro hx
      have := hb x hx
      omega
    constructor
    · simp [runsAux, runsBits, hfilter]
    · intro s hs
      simp [runsAux, runsBits, hfilter]
  | succ fuel ih =>
    intro n m hb
    have hb' : ∀ i ∈ m, i < (n + 1) + fuel := by
      intro i hi
      have := hb i hi
      omega
    obtain ⟨ihnone, ihsome⟩ := ih (n + 1) m hb'
    constructor
    · by_cases hn : n ∈ m
      · simp only [runsAux, hn, if_true]
        rw [ihsome n (by omega)]
        have h1 : Finset.Icc n (n + 1 - 1) = {n} := by simp
        rw [h1]
        ext x
        simp only [Finset.mem_union, Finset.mem_singleton, Finset.mem_filter]
        constructor
        · rintro (rfl | ⟨hx, hge⟩)
          · exact ⟨hn, le_refl _⟩
          · exact ⟨hx, by omega⟩
        · rintro ⟨hx, hge⟩
          by_cases hxn : x = n
          · exact Or.inl hxn
          · exact Or.inr ⟨hx, by omega⟩
      · simp only [runsAux, hn, if_false]
        rw [ihnone]
        ext x
        simp only [Finset.mem_filter]
        constructor
        · rintro ⟨hx, hge⟩
          exact ⟨hx, by omega⟩
        · rintro ⟨hx, hge⟩
          refine ⟨hx, ?_⟩
          rcases Nat.eq_or_lt_of_le hge with rfl | h
          · exact absurd hx hn
          · omega
    · intro s hs
      by_cases hn : n ∈ m
      · simp only [runsAux, hn, if_true]
        rw [ihsome s (by omega)]
        ext x
        simp only [Finset.mem_union, Finset.mem_Icc, Finset.mem_filter]
        constructor
        · rintro (⟨h1, h2⟩ | ⟨hx, hge⟩)
          · by_cases hxn : x ≤ n - 1
            · exact Or.inl ⟨h1, hxn⟩
            · have hxeq : x = n := by omega
              subst hxeq
              exact Or.inr ⟨hn, le_refl x⟩
          · exact Or.inr ⟨hx, by omega⟩
        · rintro (⟨h1, h2⟩ | ⟨hx, hge⟩)
          · exact Or.inl ⟨h1, by omega⟩
          · by_cases hxn : x = n
            · subst hxn
              exact Or.inl ⟨by omega, by omega⟩
            · exact Or.inr ⟨hx, by omega⟩
      · simp only [runsAux, hn, if_false]
        have hfold : runsBits ((s, n - 1) :: runsAux m (n + 1) fuel none)
            = Finset.Icc s (n - 1) ∪ runsBits (runsAux m (n + 1) fuel none) := rfl
        rw [hfold, ihnone]
        ext x
        simp only [Finset.mem_union, Finset.mem_Icc, Finset.mem_filter]
        constructor
        · rintro (⟨h1, h2⟩ | ⟨hx, hge⟩)
          · exact Or.inl ⟨h1, h2⟩
          · exact Or.inr ⟨hx, by omega⟩
        · rintro (⟨h1, h2⟩ | ⟨hx, hge⟩)
          · exact Or.inl ⟨h1, h2⟩
          · refine Or.inr ⟨hx, ?_⟩
            rcases Nat.eq_or_lt_of_le hge with rfl | h
            · exact absurd hx hn
            · omega

lemma runs_bits (maxCPUs : ℕ) (m : Mask) (hb : ∀ i ∈ m, i < maxCPUs) :
    runsBits (runs maxCPUs m) = m := by
  have h := (runsAux_bits maxCPUs 0 m (by simpa using hb)).1
  rw [runs, h]
  ext x
  simp

lemma runsAux_bounds :
    ∀ (fuel n : ℕ) (m : Mask) (cur : Option ℕ),
      (∀ s, cur = some s → s < n) →
      ∀ r ∈ runsAux m n fuel cur, r.1 ≤ r.2 ∧ r.2 < n + fuel := by
  intro fuel
  induction fuel with
  | zero =>
    intro n m cur hcur r hr
    cases cur with
    | none => cases hr
    | some s =>
      have hs : s < n := hcur s rfl
      rw [runsAux] at hr
      rw [List.mem_singleton] at hr
      subst hr
      constructor <;> simp <;> omega
  | succ fuel ih =>
    intro n m cur hcur r hr
    cases cur with
    | none =>
      simp only [runsAux] at hr
      by_cases hn : n ∈ m
      · rw [if_pos hn] at hr
        have := ih (n + 1) m (some n) (fun t ht => by injection ht with ht; omega) r hr
        omega
      · rw [if_neg hn] at hr
        have := ih (n + 1) m none (fun t ht => by cases ht) r hr
        omega
    | some s =>
      have hs : s < n := hcur s rfl
      simp only [runsAux] at hr
      by_cases hn : n ∈ m
      · rw [if_pos hn] at hr
        have := ih (n + 1) m (some s) (fun t ht => by injection ht with ht; omega) r hr
        omega
      · rw [if_neg hn] at hr
        rcases List.mem_cons.mp hr with rfl | hr
        · constructor <;> simp <;> omega
        · have := ih (n + 1) m none (fun t ht => by cases ht) r hr
          omega

lemma runsAux_empty_none : ∀ (fuel n : ℕ), runsAux (∅ : Mask) n fuel none = [] := by
  intro fuel
  induction fuel with
  | zero => intro n; rfl
  | succ fuel ih => intro n; simp [runsAux, ih]

lemma to_string_empty (maxCPUs : ℕ) : to_string maxCPUs (∅ : Mask) = "" := by
  unfold to_string runs
  rw [runsAux_empty_none]
  rfl

lemma itemsBits_map_itemOfRun :
    ∀ rs : List (ℕ × ℕ), itemsBits (rs.map itemOfRun) = runsBits rs := by
  intro rs
  induction rs with
  | nil => rfl
  | cons r rs ih =>
    rcases r with ⟨a, b⟩
    rw [List.map_cons, itemsBits_cons, ih]
    show itemBits (itemOfRun (a, b)) ∪ runsBits rs = runsBits ((a, b) :: rs)
    unfold itemOfRun
    by_cases hab : a = b
    · subst hab
      simp [itemBits, runsBits]
    · simp only [hab, if_false]
      simp [itemBits, runsBits]

lemma parse_empty (maxCPUs : ℕ) : parse maxCPUs "" = .ok (∅ : Mask) := rfl

end CPUSet

namespace CPUSet

lemma runs_bounds (maxCPUs : ℕ) (m : Mask) :
    ∀ r ∈ runs maxCPUs m, r.1 ≤ r.2 ∧ r.2 < maxCPUs := by
  intro r hr
  have h := runsAux_bounds maxCPUs 0 m none (fun s hs => by cases hs) r hr
  omega

/-- Claim C7: for every CpuMask `m` (within the `MaxCpus` bound of the
type's invariant, with `MaxCpus` in `int` range), parsing the list-form
string produced by formatting `m` yields `m` back; the empty mask formats
as the empty string and the empty string parses to the empty mask without
error. -/
theorem parse_to_string_roundtrip (maxCPUs : ℕ) (m : Mask)
    (hmax : maxCPUs ≤ 2 ^ 31) (hb : ∀ i ∈ m, i < maxCPUs) :
    parse maxCPUs (to_string maxCPUs m) = .ok m ∧
    to_string maxCPUs (∅ : Mask) = "" ∧
    parse maxCPUs "" = .ok (∅ : Mask) := by
  refine ⟨?_, to_string_empty maxCPUs, parse_empty maxCPUs⟩
  by_cases hm : m = ∅
  · subst hm
    rw [to_string_empty]
    exact parse_empty maxCPUs
  · have hbits : runsBits (runs maxCPUs m) = m := runs_bits maxCPUs m hb
    have hne : runs maxCPUs m ≠ [] := by
      intro h
      rw [h] at hbits
      exact hm hbits.symm
    have hmapne : (runs maxCPUs m).map itemOfRun ≠ [] := by
      simp [hne]
    have hvalid : ∀ it ∈ (runs maxCPUs m).map itemOfRun, validItem maxCPUs it := by
      intro it hit
      obtain ⟨r, hr, rfl⟩ := List.mem_map.mp hit
      obtain ⟨h1, h2⟩ := runs_bounds maxCPUs m r hr
      unfold itemOfRun
      by_cases hab : r.1 = r.2
      · rw [if_pos hab]
        show r.1 < maxCPUs
        omega
      · rw [if_neg hab]
        exact ⟨h1, h2⟩
    show parse maxCPUs (renderItems ((runs maxCPUs m).map itemOfRun)) = .ok m
    unfold parse
    rw [parseLoop_renderItems ((runs maxCPUs m).map itemOfRun) maxCPUs hmax
      hmapne hvalid _ true ∅ ?_]
    · rw [itemsBits_map_itemOfRun, hbits, Finset.empty_union]
    · show (renderItems _).data.length < (renderItems _).length + 1
      have : (renderItems ((runs maxCPUs m).map itemOfRun)).length
          = (renderItems ((runs maxCPUs m).map itemOfRun)).data.length := rfl
      omega

/-- Claim C7 witness. -/
theorem parse_to_string_roundtrip_witness :
    parse 16 (to_string 16 ({0, 1, 2, 4, 6, 7, 9} : Finset ℕ))
      = .ok ({0, 1, 2, 4, 6, 7, 9} : Finset ℕ) :=
  (parse_to_string_roundtrip 16 {0, 1, 2, 4, 6, 7, 9} (by norm_num) (by decide)).1

end CPUSet

namespace CPUSet

lemma ne_nil_of_getLast? {l : List Char} {c : Char} (h : l.getLast? = some c) :
    l ≠ [] := by
  intro hl
  subst hl
  cases h

lemma parseLoop_ok_last :
    ∀ (fuel : ℕ) (pos : List Char) (maxCPUs : ℕ) (atStart : Bool)
      (start : Option ℕ) (acc r : Finset ℕ),
      parseLoop maxCPUs fuel pos atStart start acc = .ok r →
      (pos = [] ∧ atStart = true) ∨
      (∃ c, pos.getLast? = some c ∧ isDigitC c = true) := by
  intro fuel
  induction fuel with
  | zero =>
    intro pos maxCPUs atStart start acc r h
    simp [parseLoop] at h
  | succ fuel ih =>
    intro pos maxCPUs atStart start acc r h
    simp only [parseLoop] at h
    rcases hst : strtoul10 pos with ⟨n, rest, conv⟩
    rw [hst] at h
    cases conv with
    | false =>
      rw [if_pos rfl] at h
      split at h
      · rename_i hcond
        have hrest : rest = pos := strtoul10_conv_false hst
        exact Or.inl ⟨by rw [← hrest]; exact hcond.2, hcond.1⟩
      · split at h <;> cases h
    | true =>
      rw [if_neg (by simp)] at h
      split at h
      · cases h
      · obtain ⟨pre, ds, hdecomp, hdsne, hdsdig⟩ := strtoul10_decomp hst
        obtain ⟨cd, hcd, hcdmem⟩ := exists_getLast?_mem ds hdsne
        have hdig : isDigitC cd = true := hdsdig cd hcdmem
        split at h
        · -- rest = [], start = none
          rename_i heqr
          have hrest : rest = [] := heqr
          refine Or.inr ⟨cd, ?_, hdig⟩
          rw [hdecomp, hrest, List.append_nil, getLast?_append_right pre hdsne, hcd]
        · -- rest = [], start = some s
          rename_i heqr
          have hrest : rest = [] := heqr
          split at h
          · cases h
          · refine Or.inr ⟨cd, ?_, hdig⟩
            rw [hdecomp, hrest, List.append_nil, getLast?_append_right pre hdsne, hcd]
        · -- rest = ',' :: tl, start = none
          rename_i tl heqr
          have hrest : rest = ',' :: tl := heqr
          rcases ih _ _ _ _ _ _ h with ⟨-, hfalse⟩ | ⟨c, hc, hcd2⟩
          · cases hfalse
          · have htlne : tl ≠ [] := ne_nil_of_getLast? hc
            refine Or.inr ⟨c, ?_, hcd2⟩
            rw [hdecomp, hrest, getLast?_append_right (pre ++ ds) (by simp),
              show (',' :: tl) = [','] ++ tl from rfl,
              getLast?_append_right [','] htlne, hc]
        · -- rest = ',' :: tl, start = some s
          rename_i tl s0 heqr
          have hrest : rest = ',' :: tl := heqr
          split at h
          · cases h
          · rcases ih _ _ _ _ _ _ h with ⟨-, hfalse⟩ | ⟨c, hc, hcd2⟩
            · cases hfalse
            · have htlne : tl ≠ [] := ne_nil_of_getLast? hc
              refine Or.inr ⟨c, ?_, hcd2⟩
              rw [hdecomp, hrest, getLast?_append_right (pre ++ ds) (by simp),
                show (',' :: tl) = [','] ++ tl from rfl,
                getLast?_append_right [','] htlne, hc]
        · -- rest = '-' :: tl, start = none
          rename_i tl heqr
          have hrest : rest = '-' :: tl := heqr
          rcases ih _ _ _ _ _ _ h with ⟨-, hfalse⟩ | ⟨c, hc, hcd2⟩
          · cases hfalse
          · have htlne : tl ≠ [] := ne_nil_of_getLast? hc
            refine Or.inr ⟨c, ?_, hcd2⟩
            rw [hdecomp, hrest, getLast?_append_right (pre ++ ds) (by simp),
              show ('-' :: tl) = ['-'] ++ tl from rfl,
              getLast?_append_right ['-'] htlne, hc]
        · -- rest = '-' :: tl, start = some s
          cases h
        · -- stray character
          cases h

end CPUSet

namespace CPUSet

lemma parse_renderItems (maxCPUs : ℕ) (its : List CPUItem) (hmax : maxCPUs ≤ 2 ^ 31)
    (hne : its ≠ []) (hvalid : ∀ it ∈ its, validItem maxCPUs it) :
    parse maxCPUs (renderItems its) = .ok (itemsBits its) := by
  unfold parse
  rw [parseLoop_renderItems its maxCPUs hmax hne hvalid _ true ∅ ?_]
  · rw [Finset.empty_union]
  · show (renderItems its).data.length < (renderItems its).length + 1
    have h : (renderItems its).length = (renderItems its).data.length := rfl
    omega

lemma parse_out_of_range (maxCPUs n : ℕ) (hN : n ≤ ulongMax) (hmaxn : maxCPUs ≤ n) :
    exceptIsOk (parse maxCPUs (natToString n)) = false := by
  unfold parse
  have hstr : strtoul10 (natToString n).data = (n, [], true) := by
    have h0 := strtoul10_digits (natDigitsAux (n + 1) n) []
      (natDigitsAux_ne_nil n n) (fun c hc => natDigitsAux_all_digit _ _ c hc)
      (fun c hc => by cases hc) (by rw [natDigits_val_self]; exact hN)
    rw [List.append_nil] at h0
    show strtoul10 (natDigitsAux (n + 1) n) = (n, [], true)
    rw [h0, natDigits_val_self]
  simp [parseLoop, hstr, hmaxn, exceptIsOk]

lemma parse_reversed_range (maxCPUs a b : ℕ) (hA : a ≤ ulongMax) (hba : b < a) :
    exceptIsOk (parse maxCPUs (natToString a ++ "-" ++ natToString b)) = false := by
  have hdata : (natToString a ++ "-" ++ natToString b).data
      = natDigitsAux (a + 1) a ++ '-' :: natDigitsAux (b + 1) b :=
    renderItem_range_data a b
  have hstr1 : strtoul10 (natDigitsAux (a + 1) a ++ '-' :: natDigitsAux (b + 1) b)
      = (a, '-' :: natDigitsAux (b + 1) b, true) := by
    have h0 := strtoul10_digits (natDigitsAux (a + 1) a)
      ('-' :: natDigitsAux (b + 1) b)
      (natDigitsAux_ne_nil a a) (fun c hc => natDigitsAux_all_digit _ _ c hc)
      (fun c hc => by injection hc with hc; subst hc; decide)
      (by rw [natDigits_val_self]; exact hA)
    rw [h0, natDigits_val_self]
  unfold parse
  rw [hdata]
  by_cases hA2 : maxCPUs ≤ a
  · simp [parseLoop, hstr1, hA2, exceptIsOk]
  · push_neg at hA2
    have hstr2 : strtoul10 (natDigitsAux (b + 1) b) = (b, [], true) := by
      have h0 := strtoul10_digits (natDigitsAux (b + 1) b) []
        (natDigitsAux_ne_nil b b) (fun c hc => natDigitsAux_all_digit _ _ c hc)
        (fun c hc => by cases hc) (by rw [natDigits_val_self]; omega)
      rw [List.append_nil] at h0
      rw [h0, natDigits_val_self]
    obtain ⟨f, hf⟩ : ∃ f, (natToString a ++ "-" ++ natToString b).length = f + 1 + 1 := by
      have h1 : (natToString a ++ "-" ++ natToString b).length
          = (natDigitsAux (a + 1) a ++ '-' :: natDigitsAux (b + 1) b).length := by
        rw [show (natToString a ++ "-" ++ natToString b).length
            = (natToString a ++ "-" ++ natToString b).data.length from rfl, hdata]
      rw [List.length_append, List.length_cons] at h1
      have hla := natDigits_length_pos a
      have hlb := natDigits_length_pos b
      exact ⟨(natToString a ++ "-" ++ natToString b).length - 2, by omega⟩
    rw [hf]
    have hred1 : parseLoop maxCPUs (f + 1 + 1 + 1)
        (natDigitsAux (a + 1) a ++ '-' :: natDigitsAux (b + 1) b) true none ∅
        = parseLoop maxCPUs (f + 1 + 1) (natDigitsAux (b + 1) b) false (some a) ∅ := by
      simp [parseLoop, hstr1, Nat.not_le.mpr hA2]
    rw [hred1]
    have hred2 : parseLoop maxCPUs (f + 1 + 1) (natDigitsAux (b + 1) b) false (some a) ∅
        = .error (.reversedRange a b) := by
      simp [parseLoop, hstr2, Nat.not_le.mpr (by omega : b < maxCPUs), hba]
    rw [hred2]
    rfl

lemma parse_negative (maxCPUs d : ℕ) (hmax : maxCPUs ≤ 2 ^ 31) (hd1 : 1 ≤ d)
    (hd2 : d ≤ 2 ^ 63) :
    exceptIsOk (parse maxCPUs ("-" ++ natToString d)) = false := by
  have hdata : ("-" ++ natToString d).data = '-' :: natDigitsAux (d + 1) d := by
    rw [String.data_append]
    rfl
  have he64 : (2 : ℕ) ^ 64 = 18446744073709551616 := by norm_num
  have he63 : (2 : ℕ) ^ 63 = 9223372036854775808 := by norm_num
  have he31 : (2 : ℕ) ^ 31 = 2147483648 := by norm_num
  have hU : ulongMax = 18446744073709551615 := by norm_num [ulongMax]
  have hstr : strtoul10 ('-' :: natDigitsAux (d + 1) d)
      = ((2 ^ 64 - d) % 2 ^ 64, [], true) := by
    have h0 := strtoul10_neg (natDigitsAux (d + 1) d) []
      (natDigitsAux_ne_nil d d) (fun c hc => natDigitsAux_all_digit _ _ c hc)
      (fun c hc => by cases hc) (by rw [natDigits_val_self]; omega)
    rw [List.append_nil] at h0
    rw [h0, natDigits_val_self]
  have hv : (2 ^ 64 - d) % 2 ^ 64 = 2 ^ 64 - d := Nat.mod_eq_of_lt (by omega)
  have hge : maxCPUs ≤ (2 ^ 64 - d) % 2 ^ 64 := by
    rw [hv]
    omega
  unfold parse
  rw [hdata]
  rw [he64] at hge
  simp [parseLoop, hstr, hge, exceptIsOk, he64]

/-- Claim C8 counterexample: `strtoul` skips leading whitespace and accepts
a sign in front of every number, so the strings `" 1"`, `"+1"` and `"-0"` —
each containing a stray non-digit character (and `"-0"` a negative-number
form) — parse successfully instead of raising an error. -/
theorem parse_stray_nondigit_accepted :
    parse 1024 " 1" = .ok {1} ∧
    parse 1024 "+1" = .ok {1} ∧
    parse 1024 "-0" = .ok {0} := by
  refine ⟨by decide, by decide, by decide⟩

/-- Claim C8 (amended): list-form parse can only succeed on the empty
string or a string ending in a digit — hence every input with a trailing
comma or trailing hyphen (and so a missing range end) errors; a reversed
range errors; a CPU index at or above `MaxCpus` errors; a negated number
errors (for magnitudes up to 2^63 — `strtoul`'s unsigned wrap-around makes
the value at least 2^63, which is out of range); and parse succeeds on
every string of the valid grammar — comma-separated decimals and ranges
`a-b` with `a ≤ b`, indices below `MaxCpus` — including the empty string.
The one amendment: `strtoul` tolerates leading whitespace and a sign
before each number, so inputs such as `" 1"`, `"+1"` and `"-0"` parse
successfully even though they contain stray non-digit characters. -/
theorem parse_error_spec :
    (∀ (maxCPUs : ℕ) (s : String) (r : Mask), parse maxCPUs s = .ok r →
      s.data = [] ∨ ∃ c, s.data.getLast? = some c ∧ isDigitC c = true) ∧
    (∀ maxCPUs a b : ℕ, a ≤ ulongMax → b < a →
      exceptIsOk (parse maxCPUs (natToString a ++ "-" ++ natToString b)) = false) ∧
    (∀ maxCPUs n : ℕ, n ≤ ulongMax → maxCPUs ≤ n →
      exceptIsOk (parse maxCPUs (natToString n)) = false) ∧
    (∀ maxCPUs d : ℕ, maxCPUs ≤ 2 ^ 31 → 1 ≤ d → d ≤ 2 ^ 63 →
      exceptIsOk (parse maxCPUs ("-" ++ natToString d)) = false) ∧
    (∀ (maxCPUs : ℕ) (its : List CPUItem), maxCPUs ≤ 2 ^ 31 → its ≠ [] →
      (∀ it ∈ its, validItem maxCPUs it) →
      parse maxCPUs (renderItems its) = .ok (itemsBits its)) ∧
    (∀ maxCPUs : ℕ, parse maxCPUs "" = .ok ∅) := by
  refine ⟨?_, parse_reversed_range, parse_out_of_range, parse_negative,
    parse_renderItems, parse_empty⟩
  intro maxCPUs s r h
  rcases parseLoop_ok_last (s.length + 1) s.data maxCPUs true none ∅ r h with
    ⟨hnil, -⟩ | hdig
  · exact Or.inl hnil
  · exact Or.inr hdig

/-- Claim C8 witness: the reversed range `"1-0"` is rejected. -/
theorem parse_error_spec_witness :
    exceptIsOk (parse 1024 (natToString 1 ++ "-" ++ natToString 0)) = false :=
  parse_error_spec.2.1 1024 1 0 (by norm_num [ulongMax]) (by norm_num)

end CPUSet

namespace CPUSet

lemma extractInt_digits (ds rest : List Char) (hne : ds ≠ [])
    (hds : ∀ c ∈ ds, isDigitC c = true)
    (hrest : ∀ c, rest.head? = some c → isDigitC c = false)
    (hval : (digitsVal ds : Int) ≤ intMax) :
    extractInt ⟨ds ++ rest, false, false⟩
      = ((digitsVal ds : Int), ⟨rest, false, rest.isEmpty⟩) := by
  obtain ⟨d, ds', rfl⟩ : ∃ d t, ds = d :: t := by
    cases ds with
    | nil => exact absurd rfl hne
    | cons d t => exact ⟨d, t, rfl⟩
  have hd : isDigitC d = true := hds d (by simp)
  have hsp : isSpaceC d = false := digit_not_space hd
  obtain ⟨hdm, hdp, -⟩ := digit_ne hd
  have htake : (d :: (ds' ++ rest)).takeWhile (fun c => isDigitC c) = d :: ds' := by
    rw [← List.cons_append]
    exact takeWhile_all_append _ _ hds hrest
  have hdrop0 : (d :: (ds' ++ rest)).dropWhile (fun c => isSpaceC c)
      = d :: (ds' ++ rest) := by
    simp [List.dropWhile, hsp]
  have hsign : stripSign (d :: (ds' ++ rest)) = (false, d :: (ds' ++ rest)) :=
    stripSign_default _ hdm hdp
  have hdrop1 : (d :: (ds' ++ rest)).drop (d :: ds').length = rest := by
    rw [← List.cons_append]
    exact List.drop_left _ _
  have hnonneg : ¬ ((digitsVal (d :: ds') : Int) < intMin) := by
    have h1 : (0 : Int) ≤ (digitsVal (d :: ds') : Int) := Int.natCast_nonneg _
    have h2 : intMin < 0 := by norm_num [intMin]
    omega
  simp only [extractInt, List.cons_append, hdrop0, hsign, htake, hdrop1]
  rw [if_neg (by simp : ¬(d :: ds' = []))]
  simp only [Bool.false_eq_true, if_false]
  rw [if_neg (not_lt.mpr hval), if_neg hnonneg]

lemma streamLoop_not_good (maxCPUs fuel : ℕ) (s : IStream) (start : Option ℕ)
    (acc : Finset ℕ) (h : s.good = false) :
    streamLoop maxCPUs fuel s start acc = finishStream s acc := by
  cases fuel with
  | zero => rfl
  | succ fuel => simp [streamLoop, h]

end CPUSet

namespace CPUSet

lemma natCast_le_intMax {n maxCPUs : ℕ} (hmax : maxCPUs ≤ 2 ^ 31) (hn : n < maxCPUs) :
    ((n : ℕ) : Int) ≤ intMax := by
  have h1 : (2 : ℕ) ^ 31 = 2147483648 := by norm_num
  have h2 : intMax = 2147483647 := by norm_num [intMax]
  have h3 : n ≤ 2147483647 := by omega
  rw [h2]
  exact_mod_cast h3

lemma cpu_cond_false {n maxCPUs : ℕ} (hn : n < maxCPUs) :
    ¬ (((n : ℕ) : Int) < 0 ∨ (maxCPUs : Int) ≤ ((n : ℕ) : Int)) := by
  push_neg
  exact ⟨Int.natCast_nonneg n, by exact_mod_cast hn⟩

lemma streamLoop_renderItems :
    ∀ (its : List CPUItem) (maxCPUs : ℕ), maxCPUs ≤ 2 ^ 31 →
      its ≠ [] → (∀ it ∈ its, validItem maxCPUs it) →
      ∀ (suffix : List Char),
        (∀ c, suffix.head? = some c → isDigitC c = false ∧ c ≠ ',' ∧ c ≠ '-') →
      ∀ (fuel : ℕ) (acc : Finset ℕ),
        ((renderItems its).data ++ suffix).length < fuel →
        streamLoop maxCPUs fuel ⟨(renderItems its).data ++ suffix, false, false⟩ none acc
          = (⟨suffix, false, suffix.isEmpty⟩, some (acc ∪ itemsBits its)) := by
  intro its
  induction its with
  | nil => intro _ _ h; exact absurd rfl h
  | cons it its ih =>
    intro maxCPUs hmax _ hvalid suffix hsuffix fuel acc hfuel
    have hvit := hvalid it (by simp)
    by_cases hits : its = []
    · -- last item
      subst hits
      obtain ⟨f, rfl⟩ : ∃ f, fuel = f + 1 := by
        cases fuel with
        | zero => omega
        | succ f => exact ⟨f, rfl⟩
      rw [renderItems_single_data] at hfuel ⊢
      cases it with
      | single n =>
        have hn : n < maxCPUs := hvit
        rw [renderItem_single_data] at hfuel ⊢
        have hext : extractInt ⟨natDigitsAux (n + 1) n ++ suffix, false, false⟩
            = ((n : Int), ⟨suffix, false, suffix.isEmpty⟩) := by
          have h0 := extractInt_digits (natDigitsAux (n + 1) n) suffix
            (natDigitsAux_ne_nil n n) (fun c hc => natDigitsAux_all_digit _ _ c hc)
            (fun c hc => (hsuffix c hc).1)
            (by rw [natDigits_val_self]; exact natCast_le_intMax hmax hn)
          rw [natDigits_val_self] at h0
          exact h0
        cases suffix with
        | nil =>
          rw [List.append_nil] at hext hfuel ⊢
          have hred : streamLoop maxCPUs (f + 1)
              ⟨natDigitsAux (n + 1) n, false, false⟩ none acc
              = streamLoop maxCPUs f ⟨[], false, true⟩ none (insert n acc) := by
            simp [streamLoop, IStream.good, hext, not_le.mpr hn, Int.not_lt.mpr (Int.natCast_nonneg n)]
          rw [hred, streamLoop_not_good maxCPUs f _ none _ (by simp [IStream.good])]
          have hset : insert n acc = acc ∪ itemsBits [CPUItem.single n] := by
            ext x
            simp [itemsBits, itemBits, or_comm]
          rw [show finishStream (⟨[], false, true⟩ : IStream) (insert n acc)
              = ((⟨[], false, true⟩ : IStream), some (insert n acc)) from rfl, hset]
          rfl
        | cons ch rest2 =>
          obtain ⟨hchd, hchc, hchm⟩ := hsuffix ch rfl
          have hred : streamLoop maxCPUs (f + 1)
              ⟨natDigitsAux (n + 1) n ++ ch :: rest2, false, false⟩ none acc
              = (⟨ch :: rest2, false, false⟩, some (insert n acc)) := by
            simp [streamLoop, IStream.good, hext, not_le.mpr hn, Int.not_lt.mpr (Int.natCast_nonneg n), hchm, hchc,
              finishStream]
          rw [hred]
          have hset : insert n acc = acc ∪ itemsBits [CPUItem.single n] := by
            ext x
            simp [itemsBits, itemBits, or_comm]
          rw [hset]
          rfl
      | range a b =>
        obtain ⟨hab, hb⟩ : a ≤ b ∧ b < maxCPUs := hvit
        have ha : a < maxCPUs := lt_of_le_of_lt hab hb
        rw [renderItem_range_data] at hfuel ⊢
        rw [List.append_assoc, List.cons_append] at hfuel ⊢
        have hext1 : extractInt ⟨natDigitsAux (a + 1) a
              ++ '-' :: (natDigitsAux (b + 1) b ++ suffix), false, false⟩
            = ((a : Int), ⟨'-' :: (natDigitsAux (b + 1) b ++ suffix), false,
                ('-' :: (natDigitsAux (b + 1) b ++ suffix)).isEmpty⟩) := by
          have h0 := extractInt_digits (natDigitsAux (a + 1) a)
            ('-' :: (natDigitsAux (b + 1) b ++ suffix))
            (natDigitsAux_ne_nil a a) (fun c hc => natDigitsAux_all_digit _ _ c hc)
            (fun c hc => by injection hc with hc; subst hc; decide)
            (by rw [natDigits_val_self]; exact natCast_le_intMax hmax ha)
          rw [natDigits_val_self] at h0
          exact h0
        have hext2 : extractInt ⟨natDigitsAux (b + 1) b ++ suffix, false, false⟩
            = ((b : Int), ⟨suffix, false, suffix.isEmpty⟩) := by
          have h0 := extractInt_digits (natDigitsAux (b + 1) b) suffix
            (natDigitsAux_ne_nil b b) (fun c hc => natDigitsAux_all_digit _ _ c hc)
            (fun c hc => (hsuffix c hc).1)
            (by rw [natDigits_val_self]; exact natCast_le_intMax hmax hb)
          rw [natDigits_val_self] at h0
          exact h0
        have hla := natDigits_length_pos a
        have hlb := natDigits_length_pos b
        rw [List.length_append, List.length_cons] at hfuel
        obtain ⟨f', rfl⟩ : ∃ f', f = f' + 1 := by
          cases f with
          | zero => omega
          | succ f' => exact ⟨f', rfl⟩
        have hred1 : streamLoop maxCPUs (f' + 1 + 1)
            ⟨natDigitsAux (a + 1) a
              ++ '-' :: (natDigitsAux (b + 1) b ++ suffix), false, false⟩ none acc
            = streamLoop maxCPUs (f' + 1)
              ⟨natDigitsAux (b + 1) b ++ suffix, false, false⟩ (some a) acc := by
          simp [streamLoop, IStream.good, hext1, not_le.mpr ha, Int.not_lt.mpr (Int.natCast_nonneg a)]
        rw [hred1]
        have hnab : ¬ a > b := not_lt.mpr hab
        cases suffix with
        | nil =>
          rw [List.append_nil] at hext2 ⊢
          have hred2 : streamLoop maxCPUs (f' + 1)
              ⟨natDigitsAux (b + 1) b, false, false⟩ (some a) acc
              = streamLoop maxCPUs f' ⟨[], false, true⟩ none (acc ∪ Finset.Icc a b) := by
            simp [streamLoop, IStream.good, hext2, not_le.mpr hb, Int.not_lt.mpr (Int.natCast_nonneg b), hnab]
          rw [hred2, streamLoop_not_good maxCPUs f' _ none _ (by simp [IStream.good])]
          have hset : acc ∪ Finset.Icc a b = acc ∪ itemsBits [CPUItem.range a b] := by
            simp [itemsBits, itemBits]
          rw [show finishStream (⟨[], false, true⟩ : IStream) (acc ∪ Finset.Icc a b)
              = ((⟨[], false, true⟩ : IStream), some (acc ∪ Finset.Icc a b)) from rfl, hset]
          rfl
        | cons ch rest2 =>
          obtain ⟨hchd, hchc, hchm⟩ := hsuffix ch rfl
          have hred2 : streamLoop maxCPUs (f' + 1)
              ⟨natDigitsAux (b + 1) b ++ ch :: rest2, false, false⟩ (some a) acc
              = (⟨ch :: rest2, false, false⟩, some (acc ∪ Finset.Icc a b)) := by
            simp [streamLoop, IStream.good, hext2, not_le.mpr hb, Int.not_lt.mpr (Int.natCast_nonneg b), hnab, hchm,
              hchc, finishStream]
          rw [hred2]
          have hset : acc ∪ Finset.Icc a b = acc ∪ itemsBits [CPUItem.range a b] := by
            simp [itemsBits, itemBits]
          rw [hset]
          rfl
    · -- item followed by a comma and more items
      have hvtail : ∀ x ∈ its, validItem maxCPUs x := fun x hx => hvalid x (by simp [hx])
      obtain ⟨f, rfl⟩ : ∃ f, fuel = f + 1 := by
        cases fuel with
        | zero => omega
        | succ f => exact ⟨f, rfl⟩
      rw [renderItems_cons_data it hits] at hfuel ⊢
      rw [List.append_assoc, List.cons_append] at hfuel ⊢
      cases it with
      | single n =>
        have hn : n < maxCPUs := hvit
        rw [renderItem_single_data] at hfuel ⊢
        have hext : extractInt ⟨natDigitsAux (n + 1) n
              ++ ',' :: ((renderItems its).data ++ suffix), false, false⟩
            = ((n : Int), ⟨',' :: ((renderItems its).data ++ suffix), false,
                (',' :: ((renderItems its).data ++ suffix)).isEmpty⟩) := by
          have h0 := extractInt_digits (natDigitsAux (n + 1) n)
            (',' :: ((renderItems its).data ++ suffix))
            (natDigitsAux_ne_nil n n) (fun c hc => natDigitsAux_all_digit _ _ c hc)
            (fun c hc => by injection hc with hc; subst hc; decide)
            (by rw [natDigits_val_self]; exact natCast_le_intMax hmax hn)
          rw [natDigits_val_self] at h0
          exact h0
        have hln := natDigits_length_pos n
        rw [List.length_append, List.length_cons] at hfuel
        have hred : streamLoop maxCPUs (f + 1)
            ⟨natDigitsAux (n + 1) n
              ++ ',' :: ((renderItems its).data ++ suffix), false, false⟩ none acc
            = streamLoop maxCPUs f
              ⟨(renderItems its).data ++ suffix, false, false⟩ none (insert n acc) := by
          simp [streamLoop, IStream.good, hext, not_le.mpr hn, Int.not_lt.mpr (Int.natCast_nonneg n)]
        rw [hred, ih maxCPUs hmax hits hvtail suffix hsuffix f (insert n acc) (by omega)]
        have hset : insert n acc ∪ itemsBits its
            = acc ∪ itemsBits (CPUItem.single n :: its) := by
          rw [itemsBits_cons]
          exact insert_union_eq acc n (itemsBits its)
        rw [hset]
      | range a b =>
        obtain ⟨hab, hb⟩ : a ≤ b ∧ b < maxCPUs := hvit
        have ha : a < maxCPUs := lt_of_le_of_lt hab hb
        rw [renderItem_range_data] at hfuel ⊢
        rw [List.append_assoc, List.cons_append] at hfuel ⊢
        have hext1 : extractInt ⟨natDigitsAux (a + 1) a
              ++ '-' :: (natDigitsAux (b + 1) b
                ++ ',' :: ((renderItems its).data ++ suffix)), false, false⟩
            = ((a : Int), ⟨'-' :: (natDigitsAux (b + 1) b
                ++ ',' :: ((renderItems its).data ++ suffix)), false,
                ('-' :: (natDigitsAux (b + 1) b
                  ++ ',' :: ((renderItems its).data ++ suffix))).isEmpty⟩) := by
          have h0 := extractInt_digits (natDigitsAux (a + 1) a)
            ('-' :: (natDigitsAux (b + 1) b ++ ',' :: ((renderItems its).data ++ suffix)))
            (natDigitsAux_ne_nil a a) (fun c hc => natDigitsAux_all_digit _ _ c hc)
            (fun c hc => by injection hc with hc; subst hc; decide)
            (by rw [natDigits_val_self]; exact natCast_le_intMax hmax ha)
          rw [natDigits_val_self] at h0
          exact h0
        have hext2 : extractInt ⟨natDigitsAux (b + 1) b
              ++ ',' :: ((renderItems its).data ++ suffix), false, false⟩
            = ((b : Int), ⟨',' :: ((renderItems its).data ++ suffix), false,
                (',' :: ((renderItems its).data ++ suffix)).isEmpty⟩) := by
          have h0 := extractInt_digits (natDigitsAux (b + 1) b)
            (',' :: ((renderItems its).data ++ suffix))
            (natDigitsAux_ne_nil b b) (fun c hc => natDigitsAux_all_digit _ _ c hc)
            (fun c hc => by injection hc with hc; subst hc; decide)
            (by rw [natDigits_val_self]; exact natCast_le_intMax hmax hb)
          rw [natDigits_val_self] at h0
          exact h0
        have hla := natDigits_length_pos a
        have hlb := natDigits_length_pos b
        rw [List.length_append, List.length_cons, List.length_append,
          List.length_cons] at hfuel
        obtain ⟨f', rfl⟩ : ∃ f', f = f' + 1 := by
          cases f with
          | zero => omega
          | succ f' => exact ⟨f', rfl⟩
        have hnab : ¬ a > b := not_lt.mpr hab
        have hred1 : streamLoop maxCPUs (f' + 1 + 1)
            ⟨natDigitsAux (a + 1) a
              ++ '-' :: (natDigitsAux (b + 1) b
                ++ ',' :: ((renderItems its).data ++ suffix)), false, false⟩ none acc
            = streamLoop maxCPUs (f' + 1)
              ⟨natDigitsAux (b + 1) b
                ++ ',' :: ((renderItems its).data ++ suffix), false, false⟩
              (some a) acc := by
          simp [streamLoop, IStream.good, hext1, not_le.mpr ha, Int.not_lt.mpr (Int.natCast_nonneg a)]
        have hred2 : streamLoop maxCPUs (f' + 1)
            ⟨natDigitsAux (b + 1) b
              ++ ',' :: ((renderItems its).data ++ suffix), false, false⟩
            (some a) acc
            = streamLoop maxCPUs f'
              ⟨(renderItems its).data ++ suffix, false, false⟩ none
              (acc ∪ Finset.Icc a b) := by
          simp [streamLoop, IStream.good, hext2, not_le.mpr hb, Int.not_lt.mpr (Int.natCast_nonneg b), hnab]
        rw [hred1, hred2,
          ih maxCPUs hmax hits hvtail suffix hsuffix f' (acc ∪ Finset.Icc a b) (by omega)]
        have hset : (acc ∪ Finset.Icc a b) ∪ itemsBits its
            = acc ∪ itemsBits (CPUItem.range a b :: its) := by
          rw [itemsBits_cons]
          exact Finset.union_assoc acc (Finset.Icc a b) (itemsBits its)
        rw [hset]

end CPUSet

namespace CPUSet

lemma head?_mem {l : List Char} {c : Char} (h : l.head? = some c) : c ∈ l := by
  cases l with
  | nil => cases h
  | cons a t =>
    injection h with h
    subst h
    simp

lemma renderItem_head_digit (it : CPUItem) :
    ∀ c, (renderItem it).data.head? = some c → isDigitC c = true := by
  intro c hc
  cases it with
  | single n =>
    rw [renderItem_single_data] at hc
    exact natDigitsAux_all_digit _ _ c (head?_mem hc)
  | range a b =>
    rw [renderItem_range_data] at hc
    obtain ⟨d, t, hd⟩ : ∃ d t, natDigitsAux (a + 1) a = d :: t := by
      cases hda : natDigitsAux (a + 1) a with
      | nil => exact absurd hda (natDigitsAux_ne_nil a a)
      | cons d t => exact ⟨d, t, rfl⟩
    rw [hd, List.cons_append] at hc
    injection hc with hc
    exact hc ▸ natDigitsAux_all_digit _ _ d (by rw [hd]; simp)

lemma renderItems_head_digit (its : List CPUItem) (hne : its ≠ []) :
    ∀ c, (renderItems its).data.head? = some c → isDigitC c = true := by
  intro c hc
  cases its with
  | nil => exact absurd rfl hne
  | cons it rest =>
    by_cases hrest : rest = []
    · subst hrest
      rw [renderItems_single_data] at hc
      exact renderItem_head_digit it c hc
    · rw [renderItems_cons_data it hrest] at hc
      obtain ⟨d, t, hd⟩ : ∃ d t, (renderItem it).data = d :: t := by
        cases hda : (renderItem it).data with
        | nil =>
          exfalso
          cases it with
          | single n => rw [renderItem_single_data] at hda; exact natDigitsAux_ne_nil n n hda
          | range a b =>
            rw [renderItem_range_data] at hda
            cases hd2 : natDigitsAux (a + 1) a with
            | nil => exact natDigitsAux_ne_nil a a hd2
            | cons x xs => rw [hd2] at hda; cases hda
        | cons d t => exact ⟨d, t, rfl⟩
      rw [hd, List.cons_append] at hc
      injection hc with hc
      exact hc ▸ renderItem_head_digit it d (by rw [hd]; rfl)

lemma renderItems_data_ne_nil (its : List CPUItem) (hne : its ≠ []) :
    (renderItems its).data ≠ [] := by
  intro h
  have := renderItems_head_digit its hne
  cases its with
  | nil => exact hne rfl
  | cons it rest =>
    by_cases hrest : rest = []
    · subst hrest
      rw [renderItems_single_data] at h
      cases it with
      | single n => rw [renderItem_single_data] at h; exact natDigitsAux_ne_nil n n h
      | range a b =>
        rw [renderItem_range_data] at h
        cases hd2 : natDigitsAux (a + 1) a with
        | nil => exact natDigitsAux_ne_nil a a hd2
        | cons x xs => rw [hd2] at h; cases h
    · rw [renderItems_cons_data it hrest] at h
      exact absurd (List.append_eq_nil.mp h).2 (by simp)

lemma streamRead_render (maxCPUs : ℕ) (its : List CPUItem) (hmax : maxCPUs ≤ 2 ^ 31)
    (hne : its ≠ []) (hvalid : ∀ it ∈ its, validItem maxCPUs it)
    (suffix : List Char)
    (hsuffix : ∀ c, suffix.head? = some c → isDigitC c = false ∧ c ≠ ',' ∧ c ≠ '-') :
    streamRead maxCPUs ⟨(renderItems its).data ++ suffix⟩
      = (⟨suffix, false, suffix.isEmpty⟩, some (itemsBits its)) := by
  have hheadd : ∀ c, ((renderItems its).data ++ suffix).head? = some c →
      isSpaceC c = false := by
    intro c hc
    obtain ⟨d, t, hd⟩ : ∃ d t, (renderItems its).data = d :: t := by
      cases hda : (renderItems its).data with
      | nil => exact absurd hda (renderItems_data_ne_nil its hne)
      | cons d t => exact ⟨d, t, rfl⟩
    rw [hd, List.cons_append] at hc
    injection hc with hc
    exact hc ▸ digit_not_space (renderItems_head_digit its hne d (by rw [hd]; rfl))
  have hdrop : ((renderItems its).data ++ suffix).dropWhile (fun c => isSpaceC c)
      = (renderItems its).data ++ suffix := dropWhile_of_head_false _ hheadd
  have hnonempty : ((renderItems its).data ++ suffix) ≠ [] := by
    intro h
    exact renderItems_data_ne_nil its hne (List.append_eq_nil.mp h).1
  unfold streamRead
  rw [show (String.mk ((renderItems its).data ++ suffix)).data
      = (renderItems its).data ++ suffix from rfl, hdrop]
  rw [if_neg (by simp [List.isEmpty_iff, hnonempty])]
  rw [streamLoop_renderItems its maxCPUs hmax hne hvalid suffix hsuffix _ ∅ ?_]
  · rw [Finset.empty_union]
  · show ((renderItems its).data ++ suffix).length
      < (String.mk ((renderItems its).data ++ suffix)).length + 1
    have hlen : (String.mk ((renderItems its).data ++ suffix)).length
        = ((renderItems its).data ++ suffix).length := rfl
    omega

/-- Claim C9 counterexample: on the input `"x"` — whose (empty) valid-mask
prefix is followed by the non-grammar character `x` — the stream parser
does not produce the empty mask positioned at `x` as the claim states: the
`int` extraction fails immediately, failbit is set, and the target mask is
left untouched. -/
theorem stream_nongrammar_start_unassigned :
    (streamRead 1024 "x").2 = none ∧
    (streamRead 1024 "x").2 ≠ some (∅ : Mask) ∧
    (streamRead 1024 "x").1.failbit = true := by
  refine ⟨by decide, by decide, by decide⟩

/-- Claim C9 (amended): on any input consisting of a *nonempty* valid mask
(at least one number) followed by a first non-grammar character, the
stream parser assigns exactly the mask the list-form parse of that prefix
yields and leaves the stream positioned at that character with no
failure bit set; a valid mask running to end-of-input likewise assigns its
mask (with eofbit set); empty input yields the empty mask as a valid
outcome; end-of-input inside a partial construct (`"0-"`) and a reversed
range fail, leaving the target untouched (the model returns `none`
exactly when the stream failed, mirroring the guarded
`set = std::move(_set)` at CPUSet.cpp:286-287).  The amendment: for an
*empty* valid prefix (input starting with a non-grammar character) the
code fails instead of yielding the empty mask. -/
theorem stream_read_spec :
    (∀ (maxCPUs : ℕ) (its : List CPUItem) (c : Char) (rest : List Char),
      maxCPUs ≤ 2 ^ 31 → its ≠ [] → (∀ it ∈ its, validItem maxCPUs it) →
      isDigitC c = false → c ≠ ',' → c ≠ '-' →
      streamRead maxCPUs ⟨(renderItems its).data ++ c :: rest⟩
          = (⟨c :: rest, false, false⟩, some (itemsBits its)) ∧
        parse maxCPUs (renderItems its) = .ok (itemsBits its)) ∧
    (∀ (maxCPUs : ℕ) (its : List CPUItem),
      maxCPUs ≤ 2 ^ 31 → its ≠ [] → (∀ it ∈ its, validItem maxCPUs it) →
      streamRead maxCPUs (renderItems its)
        = (⟨[], false, true⟩, some (itemsBits its))) ∧
    (∀ maxCPUs : ℕ, streamRead maxCPUs "" = (⟨[], false, true⟩, some (∅ : Mask))) ∧
    (streamRead 1024 "0-").2 = none ∧
    (streamRead 1024 "5-3,9").2 = none := by
  refine ⟨?_, ?_, ?_, by decide, by decide⟩
  · intro maxCPUs its c rest hmax hne hvalid hcd hcc hcm
    refine ⟨?_, parse_renderItems maxCPUs its hmax hne hvalid⟩
    have h := streamRead_render maxCPUs its hmax hne hvalid (c :: rest) ?_
    · exact h
    · intro c' hc'
      injection hc' with hc'
      subst hc'
      exact ⟨hcd, hcc, hcm⟩
  · intro maxCPUs its hmax hne hvalid
    have h := streamRead_render maxCPUs its hmax hne hvalid [] (fun c hc => by cases hc)
    rw [List.append_nil] at h
    exact h
  · intro maxCPUs
    rfl

/-- Claim C9 witness: the prefix `"0,2-3"` followed by `"\nG"` parses to
the mask of the prefix and stops at the newline. -/
theorem stream_read_spec_witness :
    streamRead 1024 ⟨(renderItems [CPUItem.single 0, CPUItem.range 2 3]).data
        ++ '\n' :: "G".data⟩
      = (⟨'\n' :: "G".data, false, false⟩,
         some (itemsBits [CPUItem.single 0, CPUItem.range 2 3])) :=
  (stream_read_spec.1 1024 [CPUItem.single 0, CPUItem.range 2 3] '\n' "G".data
    (by norm_num) (by decide) (by decide) (by decide) (by decide) (by decide)).1

end CPUSet
